import Mathlib

/-!
# betterguid: 20-character sortable identifiers

A shallow embedding of `betterguid.go`.  The package keeps two global variables
(`lastPushTimeMs`, `lastRandChars`) behind a mutex; here they are the fields of an
explicit `State` that every call receives and returns.  A Go run-time panic
(index out of range) is the result `none`.

Machine integers: `timeMs` is an `int64` and is only ever divided by `charlen`, so it is
an `Int` without wrap-around; the suffix digits are Go `int`s (64 bits) and the one
operation that can overflow, `lastRandChars[i]++`, wraps explicitly.
Go's `/` and `%` truncate toward zero: `Int.tdiv` and `Int.tmod`.
-/

namespace betterguid

/-! ## Constants (betterguid.go, lines 9-28) -/

/-- Ascending alphabet, `pushChars`. -/
def pushChars : String := "0123456789ABCDEFGHIJKLMNOPQRSTUVWXYZ_abcdefghijklmnopqrstuvwxyz"

/-- Descending alphabet, `pushCharsReverse`. -/
def pushCharsReverse : String := "zyxwvutsrqponmlkjihgfedcba_ZYXWVUTSRQPONMLKJIHGFEDCBA9876543210"

/-- Constant `MAX_DESCENDING`. -/
def MAX_DESCENDING : String := "zzzzzzzzzzzzzzzzzzzz"

/-- Constant `MAX_ASCENDING`. -/
def MAX_ASCENDING : String := "00000000000000000000"

/-- Variable `charlen = len(pushChars)`; it is never assigned again. -/
def charlen : Int := pushChars.length

/-! ## Generator state -/

/-- The package-level variables `lastPushTimeMs int64` and `lastRandChars [12]int`. -/
structure State where
  lastPushTimeMs : Int
  lastRandChars : List Int
deriving DecidableEq

/-- Two's-complement wrap of a 64-bit Go `int`. -/
def wrapInt (x : Int) : Int := (x + 2 ^ 63) % 2 ^ 64 - 2 ^ 63

/-- Go string indexing `pool[n]`: the byte at `n`, or a panic (`none`) when `n` is out of
range.  Both alphabets are ASCII, so bytes and characters coincide. -/
def index (pool : String) (n : Int) : Option Char :=
  if n < 0 then none else pool.data[n.toNat]?

/-! ## init (betterguid.go, lines 30-36) -/

/-- The loop of lines 33-35, `for i := 0; i < 12; i++ then lastRandChars[i] = rnd.Intn(charlen)`,
entered with `n` iterations left at loop variable `i`.  The generator `rnd` of `math/rand`
is outside the package: `intn i n` stands for what the call number `i` of `rnd.Intn(n)`
returns. -/
def initLoop (intn : Nat → Int → Int) : Nat → Nat → List Int → List Int
  | 0, _, a => a
  | n + 1, i, a => initLoop intn n (i + 1) (a.set i (intn i charlen))

/-- Function `init()`: the state of the package when it has run; `lastPushTimeMs` and the
array start from Go's zero values. -/
def init (intn : Nat → Int → Int) : State :=
  { lastPushTimeMs := 0, lastRandChars := initLoop intn 12 0 (List.replicate 12 0) }

/-! ## generate (betterguid.go, lines 65-92) -/

/-- The loop of lines 70-77, `for i := 0; i < 12; i++`, entered with `n` iterations left
at loop variable `i`:
`lastRandChars[i]++; if lastRandChars[i] < charlen then break; lastRandChars[i] = 0`. -/
def incrementLastRandChars : Nat → Nat → List Int → List Int
  | 0, _, a => a
  | n + 1, i, a =>
    let a1 := a.set i (wrapInt (a.getD i 0 + 1))
    if a1.getD i 0 < charlen then a1
    else incrementLastRandChars n (i + 1) (a1.set i 0)

/-- The loop of lines 81-83, `for i := 0; i < 12; i++ then id[19-i] = pool[lastRandChars[i]]`,
entered with `n` iterations left at loop variable `i`. -/
def putRandom (pool : String) (digits : List Int) : Nat → Nat → List Char → Option (List Char)
  | 0, _, id => some id
  | n + 1, i, id =>
    match index pool (digits.getD i 0) with
    | none => none
    | some c => putRandom pool digits n (i + 1) (id.set (19 - i) c)

/-- The loop of lines 86-90, `for i := 7; i >= 0; i--`; the first argument is `i + 1`:
`n := int(timeMs % charlen); id[i] = pool[n]; timeMs = timeMs / charlen`. -/
def putTime (pool : String) : Nat → Int → List Char → Option (List Char)
  | 0, _, id => some id
  | i + 1, timeMs, id =>
    match index pool (Int.tmod timeMs charlen) with
    | none => none
    | some c => putTime pool i (Int.tdiv timeMs charlen) (id.set i c)

/-- Function `generate(timeMs, pool)`: the state it leaves and the string it returns
(`none` when an index panics; the state is written before any timestamp character). -/
def generate (s : State) (timeMs : Int) (pool : String) : State × Option String :=
  let digits :=
    if timeMs = s.lastPushTimeMs then incrementLastRandChars 12 0 s.lastRandChars
    else s.lastRandChars
  let s1 : State := { lastPushTimeMs := timeMs, lastRandChars := digits }
  let id0 : List Char := List.replicate 20 (Char.ofNat 0)
  (s1, (putRandom pool digits 12 0 id0).bind fun id1 =>
         (putTime pool 8 timeMs id1).map String.mk)

/-- Function `AscendingFrom(timeMs)`. -/
def AscendingFrom (s : State) (timeMs : Int) : State × Option String :=
  generate s timeMs pushChars

/-- Function `DescendingFrom(timeMs)`. -/
def DescendingFrom (s : State) (timeMs : Int) : State × Option String :=
  generate s timeMs pushCharsReverse

/-! ## Vocabulary of the properties -/

/-- A valid generator state: 12 suffix digits, each an index into the alphabet. -/
def Valid (s : State) : Prop :=
  s.lastRandChars.length = 12 ∧ ∀ d ∈ s.lastRandChars, 0 ≤ d ∧ d < charlen

instance (s : State) : Decidable (Valid s) := by
  unfold Valid; infer_instance

/-- The two public variants of the generator. -/
inductive Variant where
  | ascending
  | descending
deriving DecidableEq

/-- The alphabet a variant passes to `generate`. -/
def Variant.pool : Variant → String
  | .ascending => pushChars
  | .descending => pushCharsReverse

/-- The state left by a sequence of generator calls, each an `AscendingFrom` or a
`DescendingFrom` with its own timestamp. -/
def runCalls (s : State) : List (Variant × Int) → State
  | [] => s
  | (v, t) :: rest => runCalls (generate s t v.pool).1 rest

/-- The state in which call number `k` of a sequence of calls of one variant starts. -/
def stateBefore (pool : String) (s : State) (ts : List Int) (k : Nat) : State :=
  (ts.take k).foldl (fun st t => (generate st t pool).1) s

/-- The identifier returned by call number `k` of a sequence of calls of one variant. -/
def output (pool : String) (s : State) (ts : List Int) (k : Nat) : Option String :=
  (generate (stateBefore pool s ts k) (ts.getD k 0) pool).2

/-- Call number `k` overflows the suffix counter: it is a collision and all 12 digits are
at the last index. -/
def overflowsAt (pool : String) (s : State) (ts : List Int) (k : Nat) : Prop :=
  ts.getD k 0 = (stateBefore pool s ts k).lastPushTimeMs ∧
    (stateBefore pool s ts k).lastRandChars = List.replicate 12 (charlen - 1)

instance (pool : String) (s : State) (ts : List Int) (k : Nat) :
    Decidable (overflowsAt pool s ts k) := by
  unfold overflowsAt; infer_instance

/-- A string of alphabet characters read as a number in the base of the alphabet: the digit
of a character is its index in `pool`, the leftmost character is the most significant. -/
def decode (pool : String) (cs : List Char) : Int :=
  cs.foldl (fun acc c => acc * (pool.length : Int) + (pool.data.indexOf c : Int)) 0

/-! ## Concurrent callers of New (betterguid.go, lines 38-47 and 65-92) -/

/-- An atomic step of a program whose goroutines call `New()`, that is `Ascending()`.
`tick`: the wall clock advances by one millisecond.  `read g`: goroutine `g` executes
line 45, `timeMs := time.Now().UTC().UnixNano() / 1e6`.  `gen g`: goroutine `g` executes
line 46, `AscendingFrom(timeMs)`; `generate` holds `mu` from line 67 to line 84 and
touches only its locals `id` and `timeMs` after `mu.Unlock()`, so the call is one step on
the shared variables. -/
inductive Event where
  | tick : Event
  | read : Nat → Event
  | gen : Nat → Event
deriving DecidableEq

/-- A moment of such a program: the clock in milliseconds, the package variables, the local
`timeMs` of every goroutine that is between line 45 and line 46, and the identifiers
returned so far, each with the goroutine that received it. -/
structure Run where
  clock : Int
  state : State
  pending : List (Nat × Int)
  returned : List (Nat × Option String)

/-- The effect of one step.  A goroutine is sequential: it reads the clock only when it has
no call outstanding, and calls `AscendingFrom` only with a timestamp it has read; a step
that is not enabled leaves everything as it is. -/
def stepEvent (w : Run) : Event → Run
  | .tick => { w with clock := w.clock + 1 }
  | .read g =>
    match w.pending.lookup g with
    | some _ => w
    | none => { w with pending := (g, w.clock) :: w.pending }
  | .gen g =>
    match w.pending.lookup g with
    | none => w
    | some timeMs =>
      { w with state := (AscendingFrom w.state timeMs).1,
               pending := w.pending.filter (fun p => !(p.1 == g)),
               returned := w.returned ++ [(g, (AscendingFrom w.state timeMs).2)] }

/-- A schedule: the steps of all goroutines in the order in which they happen. -/
def runEvents (w : Run) (es : List Event) : Run := es.foldl stepEvent w

/-- Two goroutines; goroutine 1 reads the clock in millisecond 10 and is delayed before it
reaches `mu.Lock()`, goroutine 0 calls `New()` twice in millisecond 11 with the call of
goroutine 1 in between. -/
def delayedSchedule : List Event :=
  [.read 1, .tick, .read 0, .gen 0, .gen 1, .read 0, .gen 0]

/-- A valid state whose next increment carries through three digits. -/
def carryState : State := ⟨4, [62, 62, 62, 0, 0, 0, 0, 0, 0, 0, 0, 0]⟩

/-- A valid state with an all-zero suffix. -/
def zeroState : State := ⟨0, List.replicate 12 0⟩

/-- A valid state with every suffix digit at the last index. -/
def maxState : State := ⟨0, List.replicate 12 62⟩

/-! ## Closed forms used in the proofs -/

/-- The character of digit `d`. -/
def charAt (pool : String) (d : Int) : Char := pool.data.getD d.toNat (Char.ofNat 0)

/-- Increment of a little-endian base-`charlen` counter. -/
def incDigits : List Int → List Int
  | [] => []
  | d :: ds => if d + 1 < charlen then (d + 1) :: ds else 0 :: incDigits ds

/-- The `k` low base-`charlen` digits of `t`, most significant first. -/
def timeDigits : Nat → Int → List Int
  | 0, _ => []
  | k + 1, t => timeDigits k (t / charlen) ++ [t % charlen]

/-- Value of a little-endian digit list. -/
def digitsVal : List Int → Int
  | [] => 0
  | d :: ds => d + charlen * digitsVal ds

/-- All digits are alphabet indices. -/
def DigitsOk (ds : List Int) : Prop := ∀ d ∈ ds, 0 ≤ d ∧ d < charlen

/-- The suffix digits a call emits. -/
def nextDigits (s : State) (t : Int) : List Int :=
  if t = s.lastPushTimeMs then incDigits s.lastRandChars else s.lastRandChars

/-- The identifier as a list of characters: 8 timestamp characters, then the suffix. -/
def idChars (pool : String) (t : Int) (digits : List Int) : List Char :=
  (timeDigits 8 t).map (charAt pool) ++ (digits.map (charAt pool)).reverse

/-! ## The loops in closed form -/

theorem charlen_eq : charlen = 63 := by decide

theorem pushChars_length : pushChars.data.length = 63 := by decide

theorem pushCharsReverse_length : pushCharsReverse.data.length = 63 := by decide

theorem pushCharsReverse_eq : pushCharsReverse.data = pushChars.data.reverse := by decide

theorem pushChars_nodup : pushChars.data.Nodup := by decide

theorem pushCharsReverse_nodup : pushCharsReverse.data.Nodup := by
  rw [pushCharsReverse_eq]; exact List.nodup_reverse.mpr pushChars_nodup

theorem wrapInt_of_small (x : Int) (h0 : 0 ≤ x) (h1 : x ≤ 63) : wrapInt x = x := by
  unfold wrapInt; omega

theorem index_eq_charAt (pool : String) (hp : pool.data.length = 63) (d : Int)
    (h0 : 0 ≤ d) (h1 : d < charlen) : index pool d = some (charAt pool d) := by
  rw [charlen_eq] at h1
  have hlt : d.toNat < pool.data.length := by omega
  have hneg : ¬ d < 0 := by omega
  simp [index, charAt, hneg, List.getD_eq_getElem _ _ hlt, List.getElem?_eq_getElem hlt]

theorem charAt_mem (pool : String) (hp : pool.data.length = 63) (d : Int)
    (h0 : 0 ≤ d) (h1 : d < charlen) : charAt pool d ∈ pool.data := by
  rw [charlen_eq] at h1
  have hlt : d.toNat < pool.data.length := by omega
  unfold charAt
  rw [List.getD_eq_getElem _ _ hlt]
  exact List.getElem_mem hlt


theorem set_eq_split {α : Type} (l : List α) (i : Nat) (x : α) (h : i < l.length) :
    l.set i x = l.take i ++ x :: l.drop (i + 1) := by
  rw [List.set_eq_take_append_cons_drop, if_pos h]

theorem take_succ_set {α : Type} (l : List α) (i : Nat) (x : α) (h : i < l.length) :
    (l.set i x).take (i + 1) = l.take i ++ [x] := by
  rw [set_eq_split l i x h]
  have hl : (l.take i).length = i := by simp; omega
  rw [List.take_append_eq_append_take, hl]
  simp

theorem drop_succ_set {α : Type} (l : List α) (i : Nat) (x : α) :
    (l.set i x).drop (i + 1) = l.drop (i + 1) := by
  rw [List.drop_set]; simp

theorem drop_self_set {α : Type} (l : List α) (i : Nat) (x : α) (h : i < l.length) :
    (l.set i x).drop i = x :: l.drop (i + 1) := by
  rw [set_eq_split l i x h]
  have hl : (l.take i).length = i := by simp; omega
  rw [List.drop_append_eq_append_drop, hl]
  simp

theorem digitsOk_set_zero (a : List Int) (i : Nat) (hok : DigitsOk a) :
    DigitsOk (a.set i 0) := by
  intro d hd
  rcases List.mem_or_eq_of_mem_set hd with h | h
  · exact hok d h
  · subst h; rw [charlen_eq]; omega

theorem incrementLastRandChars_eq (n : Nat) : ∀ (i : Nat) (a : List Int),
    i + n = a.length → DigitsOk a →
    incrementLastRandChars n i a = a.take i ++ incDigits (a.drop i) := by
  induction n with
  | zero =>
    intro i a hlen _
    have h1 : a.take i = a := List.take_of_length_le (by omega)
    have h2 : a.drop i = [] := List.drop_of_length_le (by omega)
    simp [incrementLastRandChars, h1, h2, incDigits]
  | succ n ih =>
    intro i a hlen hok
    have hi : i < a.length := by omega
    have hget : a.getD i 0 = a[i] := List.getD_eq_getElem _ _ hi
    have hmem : 0 ≤ a[i] ∧ a[i] < charlen := hok _ (List.getElem_mem hi)
    have hw : wrapInt (a[i] + 1) = a[i] + 1 := by
      apply wrapInt_of_small
      · omega
      · have := hmem.2; rw [charlen_eq] at this; omega
    have hget2 : (a.set i (a[i] + 1)).getD i 0 = a[i] + 1 := by
      rw [List.getD_eq_getElem _ _ (by simpa using hi)]; simp
    rw [List.drop_eq_getElem_cons hi]
    unfold incrementLastRandChars
    simp only [hget, hw, hget2, incDigits]
    by_cases h : a[i] + 1 < charlen
    · rw [if_pos h, if_pos h, set_eq_split a i _ hi]
    · rw [if_neg h, if_neg h, List.set_set]
      rw [ih (i + 1) (a.set i 0) (by simp; omega) (digitsOk_set_zero a i hok)]
      rw [take_succ_set a i 0 hi, drop_succ_set]
      simp

theorem take_set_of_le {α : Type} (l : List α) (i m : Nat) (x : α) (h : m ≤ i) :
    (l.set i x).take m = l.take m := by
  induction l generalizing i m with
  | nil => simp
  | cons a l ih =>
    cases m with
    | zero => simp
    | succ m =>
      cases i with
      | zero => omega
      | succ i => simp [ih i m (by omega)]

theorem putRandom_eq (pool : String) (hp : pool.data.length = 63) (digits : List Int)
    (hlen : digits.length = 12) (hok : DigitsOk digits) (n : Nat) :
    ∀ (i : Nat) (id : List Char), i + n = 12 → id.length = 20 →
    putRandom pool digits n i id =
      some (id.take 8 ++ ((digits.drop i).map (charAt pool)).reverse ++ id.drop (20 - i)) := by
  induction n with
  | zero =>
    intro i id hi _
    have h2 : digits.drop i = [] := List.drop_of_length_le (by omega)
    have h3 : 20 - i = 8 := by omega
    simp [putRandom, h2, h3]
  | succ n ih =>
    intro i id hi hid
    have hlt : i < digits.length := by omega
    have hget : digits.getD i 0 = digits[i] := List.getD_eq_getElem _ _ hlt
    have hmem : 0 ≤ digits[i] ∧ digits[i] < charlen := hok _ (List.getElem_mem hlt)
    have hpos : 19 - i < id.length := by omega
    unfold putRandom
    rw [hget, index_eq_charAt pool hp _ hmem.1 hmem.2]
    simp only []
    rw [ih (i + 1) _ (by omega) (by simpa using hid)]
    have h20 : 20 - (i + 1) = 19 - i := by omega
    have h20b : 20 - i = 19 - i + 1 := by omega
    have hdrop : digits.drop i = digits[i] :: digits.drop (i + 1) :=
      List.drop_eq_getElem_cons hlt
    rw [h20, h20b, drop_self_set id (19 - i) _ hpos, take_set_of_le id (19 - i) 8 _ (by omega),
      hdrop]
    simp only [List.map_cons, List.reverse_cons, List.append_assoc, List.singleton_append]

theorem putTime_eq (pool : String) (hp : pool.data.length = 63) (k : Nat) :
    ∀ (t : Int) (id : List Char), 0 ≤ t → k ≤ id.length →
    putTime pool k t id = some ((timeDigits k t).map (charAt pool) ++ id.drop k) := by
  induction k with
  | zero => intro t id _ _; simp [putTime, timeDigits]
  | succ k ih =>
    intro t id ht hk
    have hc : (0 : Int) ≤ charlen := by rw [charlen_eq]; omega
    have hmod : Int.tmod t charlen = t % charlen := Int.tmod_eq_emod ht hc
    have hdiv : Int.tdiv t charlen = t / charlen := Int.tdiv_eq_ediv ht hc
    have h0 : 0 ≤ t % charlen := Int.emod_nonneg _ (by rw [charlen_eq]; omega)
    have h1 : t % charlen < charlen := Int.emod_lt_of_pos _ (by rw [charlen_eq]; omega)
    have hq : 0 ≤ t / charlen := Int.ediv_nonneg ht hc
    unfold putTime
    rw [hmod, hdiv, index_eq_charAt pool hp _ h0 h1]
    simp only []
    rw [ih (t / charlen) _ hq (by simp; omega), drop_self_set id k _ (by omega)]
    simp [timeDigits]

theorem timeDigits_length (k : Nat) : ∀ t : Int, (timeDigits k t).length = k := by
  induction k with
  | zero => intro t; rfl
  | succ k ih => intro t; simp [timeDigits, ih]

theorem timeDigits_ok (k : Nat) : ∀ t : Int, DigitsOk (timeDigits k t) := by
  induction k with
  | zero => intro t d hd; simp [timeDigits] at hd
  | succ k ih =>
    intro t d hd
    simp only [timeDigits, List.mem_append, List.mem_singleton] at hd
    rcases hd with h | h
    · exact ih _ d h
    · subst h
      exact ⟨Int.emod_nonneg _ (by rw [charlen_eq]; omega),
        Int.emod_lt_of_pos _ (by rw [charlen_eq]; omega)⟩

theorem incDigits_length : ∀ ds : List Int, (incDigits ds).length = ds.length
  | [] => rfl
  | d :: ds => by
    unfold incDigits
    split
    · rfl
    · simp [incDigits_length ds]

theorem incDigits_ok : ∀ ds : List Int, DigitsOk ds → DigitsOk (incDigits ds)
  | [], _ => by intro d hd; simp [incDigits] at hd
  | d :: ds, h => by
    have hd0 := h d (List.mem_cons_self _ _)
    have hrest : DigitsOk ds := fun x hx => h x (List.mem_cons_of_mem _ hx)
    unfold incDigits
    split
    · intro x hx
      rcases List.mem_cons.mp hx with hx | hx
      · subst hx; exact ⟨by omega, by assumption⟩
      · exact hrest x hx
    · intro x hx
      rcases List.mem_cons.mp hx with hx | hx
      · subst hx; rw [charlen_eq]; omega
      · exact incDigits_ok ds hrest x hx

theorem generate_fst (s : State) (hs : Valid s) (t : Int) (pool : String) :
    (generate s t pool).1 = { lastPushTimeMs := t, lastRandChars := nextDigits s t } := by
  unfold generate nextDigits
  simp only []
  rw [incrementLastRandChars_eq 12 0 _ (by simpa using hs.1.symm) hs.2]
  simp

theorem nextDigits_length (s : State) (hs : Valid s) (t : Int) :
    (nextDigits s t).length = 12 := by
  unfold nextDigits
  split
  · rw [incDigits_length]; exact hs.1
  · exact hs.1

theorem nextDigits_ok (s : State) (hs : Valid s) (t : Int) : DigitsOk (nextDigits s t) := by
  unfold nextDigits
  split
  · exact incDigits_ok _ hs.2
  · exact hs.2

theorem generate_valid (s : State) (hs : Valid s) (t : Int) (pool : String) :
    Valid (generate s t pool).1 := by
  rw [generate_fst s hs]
  exact ⟨nextDigits_length s hs t, nextDigits_ok s hs t⟩

theorem generate_snd (s : State) (hs : Valid s) (t : Int) (ht : 0 ≤ t) (pool : String)
    (hp : pool.data.length = 63) :
    (generate s t pool).2 = some (String.mk (idChars pool t (nextDigits s t))) := by
  have hfst := generate_fst s hs t pool
  have hd : (generate s t pool).1.lastRandChars = nextDigits s t := by rw [hfst]
  unfold generate at hd ⊢
  simp only [] at hd ⊢
  rw [hd, putRandom_eq pool hp _ (nextDigits_length s hs t) (nextDigits_ok s hs t) 12 0 _
    (by rfl) (by simp)]
  simp only [Option.some_bind]
  rw [putTime_eq pool hp 8 t _ ht (by simp)]
  simp [idChars]

theorem idChars_length (pool : String) (t : Int) (digits : List Int)
    (hlen : digits.length = 12) : (idChars pool t digits).length = 20 := by
  simp [idChars, timeDigits_length, hlen]

theorem idChars_mem (pool : String) (hp : pool.data.length = 63) (t : Int)
    (digits : List Int) (hok : DigitsOk digits) :
    ∀ c ∈ idChars pool t digits, c ∈ pool.data := by
  intro c hc
  simp only [idChars, List.mem_append, List.mem_reverse, List.mem_map] at hc
  rcases hc with ⟨d, hd, rfl⟩ | ⟨d, hd, rfl⟩
  · exact charAt_mem pool hp d (timeDigits_ok 8 t d hd).1 (timeDigits_ok 8 t d hd).2
  · exact charAt_mem pool hp d (hok d hd).1 (hok d hd).2

theorem generate_wellformed (s : State) (hs : Valid s) (t : Int) (ht : 0 ≤ t)
    (pool : String) (hp : pool.data.length = 63) :
    ∃ id, (generate s t pool).2 = some id ∧ id.length = 20 ∧ ∀ c ∈ id.data, c ∈ pool.data := by
  refine ⟨_, generate_snd s hs t ht pool hp, ?_, ?_⟩
  · exact idChars_length pool t _ (nextDigits_length s hs t)
  · exact idChars_mem pool hp t _ (nextDigits_ok s hs t)

/-- C1: from a valid state and a timestamp `timeMs ≥ 0`, `AscendingFrom` and
`DescendingFrom` each return a string of exactly 20 characters, all of them characters of
the alphabet used (`pushChars`, respectively `pushCharsReverse`). -/
theorem generated_length_and_alphabet (s : State) (hs : Valid s) (timeMs : Int)
    (ht : 0 ≤ timeMs) :
    (∃ id, (AscendingFrom s timeMs).2 = some id ∧ id.length = 20 ∧
        ∀ c ∈ id.data, c ∈ pushChars.data) ∧
    (∃ id, (DescendingFrom s timeMs).2 = some id ∧ id.length = 20 ∧
        ∀ c ∈ id.data, c ∈ pushCharsReverse.data) :=
  ⟨generate_wellformed s hs timeMs ht pushChars pushChars_length,
   generate_wellformed s hs timeMs ht pushCharsReverse pushCharsReverse_length⟩

theorem generated_length_and_alphabet_witness :
    Valid ⟨0, [61, 62, 3, 4, 5, 6, 7, 8, 9, 10, 11, 12]⟩ ∧
    ((∃ id, (AscendingFrom ⟨0, [61, 62, 3, 4, 5, 6, 7, 8, 9, 10, 11, 12]⟩ 1700000000000).2
          = some id ∧ id.length = 20 ∧ ∀ c ∈ id.data, c ∈ pushChars.data) ∧
     (∃ id, (DescendingFrom ⟨0, [61, 62, 3, 4, 5, 6, 7, 8, 9, 10, 11, 12]⟩ 1700000000000).2
          = some id ∧ id.length = 20 ∧ ∀ c ∈ id.data, c ∈ pushCharsReverse.data)) :=
  ⟨by decide, generated_length_and_alphabet _ (by decide) 1700000000000 (by decide)⟩


/-! ## Lexicographic order of identifiers -/

theorem lex_append_of_length_eq {α : Type} {r : α → α → Prop} {a b : List α}
    (h : List.Lex r a b) (c d : List α) (hlen : a.length = b.length) :
    List.Lex r (a ++ c) (b ++ d) := by
  induction h with
  | nil => simp at hlen
  | cons _ ih => exact List.Lex.cons (ih (by simpa using hlen))
  | rel hr => exact List.Lex.rel hr

theorem lex_map_mono {α β : Type} {lt : α → α → Prop} {r : β → β → Prop} (f : α → β)
    {a b : List α} (h : List.Lex lt a b) (hlen : a.length = b.length)
    (hf : ∀ x ∈ a, ∀ y ∈ b, lt x y → r (f x) (f y)) :
    List.Lex r (a.map f) (b.map f) := by
  induction h with
  | nil => simp at hlen
  | cons _ ih =>
    exact List.Lex.cons (ih (by simpa using hlen)
      (fun x hx y hy => hf x (List.mem_cons_of_mem _ hx) y (List.mem_cons_of_mem _ hy)))
  | rel hr => exact List.Lex.rel (hf _ (List.mem_cons_self _ _) _ (List.mem_cons_self _ _) hr)

theorem lex_map_anti {α β : Type} {lt : α → α → Prop} {r : β → β → Prop} (f : α → β)
    {a b : List α} (h : List.Lex lt a b) (hlen : a.length = b.length)
    (hf : ∀ x ∈ a, ∀ y ∈ b, lt x y → r (f y) (f x)) :
    List.Lex r (b.map f) (a.map f) := by
  induction h with
  | nil => simp at hlen
  | cons _ ih =>
    exact List.Lex.cons (ih (by simpa using hlen)
      (fun x hx y hy => hf x (List.mem_cons_of_mem _ hx) y (List.mem_cons_of_mem _ hy)))
  | rel hr => exact List.Lex.rel (hf _ (List.mem_cons_self _ _) _ (List.mem_cons_self _ _) hr)

theorem lex_timeDigits (k : Nat) : ∀ t1 t2 : Int, 0 ≤ t1 → t1 < t2 → t2 < charlen ^ k →
    List.Lex (· < ·) (timeDigits k t1) (timeDigits k t2) := by
  induction k with
  | zero => intro t1 t2 h0 h12 h2; simp at h2; omega
  | succ k ih =>
    intro t1 t2 h0 h12 h2
    have hc : (0 : Int) < charlen := by rw [charlen_eq]; omega
    have hq : t1 / charlen ≤ t2 / charlen := Int.ediv_le_ediv hc (le_of_lt h12)
    have hq2 : t2 / charlen < charlen ^ k :=
      Int.ediv_lt_of_lt_mul hc (by rw [pow_succ] at h2; exact h2)
    have hq0 : 0 ≤ t1 / charlen := Int.ediv_nonneg h0 (le_of_lt hc)
    unfold timeDigits
    rcases lt_or_eq_of_le hq with hlt | heq
    · exact lex_append_of_length_eq (ih _ _ hq0 hlt hq2) _ _
        (by rw [timeDigits_length, timeDigits_length])
    · rw [heq]
      apply List.Lex.append_left
      apply List.Lex.rel
      have e1 := Int.emod_add_ediv t1 charlen
      have e2 := Int.emod_add_ediv t2 charlen
      rw [heq] at e1
      omega

theorem pushChars_sorted : pushChars.data.Pairwise (· < ·) := by decide

theorem pushCharsReverse_sorted : pushCharsReverse.data.Pairwise (fun x y => y < x) := by
  decide

theorem charAt_pushChars_lt (x y : Int) (h0 : 0 ≤ x) (hxy : x < y) (hy : y < charlen) :
    charAt pushChars x < charAt pushChars y := by
  rw [charlen_eq] at hy
  have hx1 : x.toNat < pushChars.data.length := by rw [pushChars_length]; omega
  have hy1 : y.toNat < pushChars.data.length := by rw [pushChars_length]; omega
  unfold charAt
  rw [List.getD_eq_getElem _ _ hx1, List.getD_eq_getElem _ _ hy1]
  exact List.pairwise_iff_getElem.mp pushChars_sorted _ _ hx1 hy1 (by omega)

theorem charAt_pushCharsReverse_lt (x y : Int) (h0 : 0 ≤ x) (hxy : x < y) (hy : y < charlen) :
    charAt pushCharsReverse y < charAt pushCharsReverse x := by
  rw [charlen_eq] at hy
  have hx1 : x.toNat < pushCharsReverse.data.length := by
    rw [pushCharsReverse_length]; omega
  have hy1 : y.toNat < pushCharsReverse.data.length := by
    rw [pushCharsReverse_length]; omega
  unfold charAt
  rw [List.getD_eq_getElem _ _ hx1, List.getD_eq_getElem _ _ hy1]
  exact List.pairwise_iff_getElem.mp pushCharsReverse_sorted _ _ hx1 hy1 (by omega)

theorem runCalls_valid (calls : List (Variant × Int)) : ∀ s : State, Valid s →
    Valid (runCalls s calls) := by
  induction calls with
  | nil => intro s hs; exact hs
  | cons c rest ih =>
    intro s hs
    obtain ⟨v, t⟩ := c
    exact ih _ (generate_valid s hs t v.pool)

theorem string_lt_mk (a b : List Char) (h : List.Lex (· < ·) a b) :
    String.mk a < String.mk b :=
  String.lt_iff_toList_lt.mpr h

theorem idChars_lt_of_time_lt (t1 t2 : Int) (h0 : 0 ≤ t1) (h12 : t1 < t2)
    (h2 : t2 < charlen ^ 8) (d1 d2 : List Int) :
    List.Lex (· < ·) (idChars pushChars t1 d1) (idChars pushChars t2 d2) := by
  unfold idChars
  apply lex_append_of_length_eq
  · exact lex_map_mono _ (lex_timeDigits 8 t1 t2 h0 h12 h2)
      (by rw [timeDigits_length, timeDigits_length])
      (fun x hx y hy hxy =>
        charAt_pushChars_lt x y (timeDigits_ok 8 t1 x hx).1 hxy (timeDigits_ok 8 t2 y hy).2)
  · simp [timeDigits_length]

theorem idChars_gt_of_time_lt (t1 t2 : Int) (h0 : 0 ≤ t1) (h12 : t1 < t2)
    (h2 : t2 < charlen ^ 8) (d1 d2 : List Int) :
    List.Lex (· < ·) (idChars pushCharsReverse t2 d2) (idChars pushCharsReverse t1 d1) := by
  unfold idChars
  apply lex_append_of_length_eq
  · exact lex_map_anti _ (lex_timeDigits 8 t1 t2 h0 h12 h2)
      (by rw [timeDigits_length, timeDigits_length])
      (fun x hx y hy hxy =>
        charAt_pushCharsReverse_lt x y (timeDigits_ok 8 t1 x hx).1 hxy
          (timeDigits_ok 8 t2 y hy).2)
  · simp [timeDigits_length]

/-- C2: from a valid state, for timestamps `0 ≤ t1 < t2 < charlen ^ 8` and any sequence
of generator calls between the two, the identifier of `AscendingFrom t2` is strictly
greater, in lexicographic order, than the identifier returned earlier by
`AscendingFrom t1`, whatever the suffix digits are. -/
theorem ascending_later_timestamp_greater (s : State) (hs : Valid s) (t1 t2 : Int)
    (h0 : 0 ≤ t1) (h12 : t1 < t2) (h2 : t2 < charlen ^ 8) (calls : List (Variant × Int)) :
    ∃ id1 id2, (AscendingFrom s t1).2 = some id1 ∧
      (AscendingFrom (runCalls (AscendingFrom s t1).1 calls) t2).2 = some id2 ∧
      id1 < id2 := by
  have hs1 : Valid (runCalls (AscendingFrom s t1).1 calls) :=
    runCalls_valid calls _ (generate_valid s hs t1 pushChars)
  refine ⟨_, _, generate_snd s hs t1 h0 pushChars pushChars_length,
    generate_snd _ hs1 t2 (by omega) pushChars pushChars_length, ?_⟩
  exact string_lt_mk _ _ (idChars_lt_of_time_lt t1 t2 h0 h12 h2 _ _)

theorem ascending_later_timestamp_greater_witness :
    ∃ id1 id2, (AscendingFrom ⟨7, List.replicate 12 62⟩ 7).2 = some id1 ∧
      (AscendingFrom (runCalls (AscendingFrom ⟨7, List.replicate 12 62⟩ 7).1
        [(Variant.descending, 9), (Variant.ascending, 3)]) 8).2 = some id2 ∧
      id1 < id2 :=
  ascending_later_timestamp_greater ⟨7, List.replicate 12 62⟩ (by decide) 7 8
    (by decide) (by decide) (by decide) [(Variant.descending, 9), (Variant.ascending, 3)]

/-- C3: from a valid state, for timestamps `0 ≤ t1 < t2 < charlen ^ 8` and any sequence
of generator calls between the two, the identifier of `DescendingFrom t2` is strictly
smaller, in lexicographic order, than the identifier returned earlier by
`DescendingFrom t1`. -/
theorem descending_later_timestamp_smaller (s : State) (hs : Valid s) (t1 t2 : Int)
    (h0 : 0 ≤ t1) (h12 : t1 < t2) (h2 : t2 < charlen ^ 8) (calls : List (Variant × Int)) :
    ∃ id1 id2, (DescendingFrom s t1).2 = some id1 ∧
      (DescendingFrom (runCalls (DescendingFrom s t1).1 calls) t2).2 = some id2 ∧
      id2 < id1 := by
  have hs1 : Valid (runCalls (DescendingFrom s t1).1 calls) :=
    runCalls_valid calls _ (generate_valid s hs t1 pushCharsReverse)
  refine ⟨_, _, generate_snd s hs t1 h0 pushCharsReverse pushCharsReverse_length,
    generate_snd _ hs1 t2 (by omega) pushCharsReverse pushCharsReverse_length, ?_⟩
  exact string_lt_mk _ _ (idChars_gt_of_time_lt t1 t2 h0 h12 h2 _ _)

theorem descending_later_timestamp_smaller_witness :
    ∃ id1 id2, (DescendingFrom ⟨0, List.replicate 12 0⟩ 0).2 = some id1 ∧
      (DescendingFrom (runCalls (DescendingFrom ⟨0, List.replicate 12 0⟩ 0).1
        [(Variant.descending, 0), (Variant.ascending, 62)]) 63).2 = some id2 ∧
      id2 < id1 :=
  descending_later_timestamp_smaller ⟨0, List.replicate 12 0⟩ (by decide) 0 63
    (by decide) (by decide) (by decide) [(Variant.descending, 0), (Variant.ascending, 62)]


/-! ## Collisions: the incremented suffix -/

theorem lex_reverse_incDigits : ∀ ds : List Int, DigitsOk ds →
    ds ≠ List.replicate ds.length (charlen - 1) →
    List.Lex (· < ·) ds.reverse (incDigits ds).reverse
  | [], _, hne => by simp at hne
  | d :: ds, hok, hne => by
    have hd := hok d (List.mem_cons_self _ _)
    have hrest : DigitsOk ds := fun x hx => hok x (List.mem_cons_of_mem _ hx)
    unfold incDigits
    split
    · rw [List.reverse_cons, List.reverse_cons]
      exact List.Lex.append_left _ (List.Lex.rel (by omega)) _
    · rename_i hnot
      have hdmax : d = charlen - 1 := by omega
      have hne2 : ds ≠ List.replicate ds.length (charlen - 1) := by
        intro h
        apply hne
        rw [List.length_cons, List.replicate_succ, ← h, hdmax]
      rw [List.reverse_cons, List.reverse_cons]
      exact lex_append_of_length_eq (lex_reverse_incDigits ds hrest hne2) _ _
        (by simp [incDigits_length])

theorem digitsVal_incDigits : ∀ ds : List Int, DigitsOk ds →
    ds ≠ List.replicate ds.length (charlen - 1) →
    digitsVal (incDigits ds) = digitsVal ds + 1
  | [], _, hne => by simp at hne
  | d :: ds, hok, hne => by
    have hd := hok d (List.mem_cons_self _ _)
    have hrest : DigitsOk ds := fun x hx => hok x (List.mem_cons_of_mem _ hx)
    unfold incDigits
    split
    · simp only [digitsVal]; ring
    · rename_i hnot
      have hdmax : d = charlen - 1 := by omega
      have hne2 : ds ≠ List.replicate ds.length (charlen - 1) := by
        intro h
        apply hne
        rw [List.length_cons, List.replicate_succ, ← h, hdmax]
      simp only [digitsVal, digitsVal_incDigits ds hrest hne2, hdmax]
      ring

theorem incDigits_ne : ∀ ds : List Int, ds ≠ [] → DigitsOk ds → incDigits ds ≠ ds
  | [], hne, _ => by simp at hne
  | d :: ds, _, hok => by
    have hd := hok d (List.mem_cons_self _ _)
    unfold incDigits
    split
    · intro h
      have := (List.cons.inj h).1
      omega
    · intro h
      have := (List.cons.inj h).1
      rw [charlen_eq] at *
      omega

theorem charAt_inj (pool : String) (hp : pool.data.length = 63) (hn : pool.data.Nodup)
    (x y : Int) (hx : 0 ≤ x ∧ x < charlen) (hy : 0 ≤ y ∧ y < charlen)
    (h : charAt pool x = charAt pool y) : x = y := by
  rw [charlen_eq] at hx hy
  have hx1 : x.toNat < pool.data.length := by omega
  have hy1 : y.toNat < pool.data.length := by omega
  unfold charAt at h
  rw [List.getD_eq_getElem _ _ hx1, List.getD_eq_getElem _ _ hy1] at h
  have := (List.Nodup.getElem_inj_iff hn).mp h
  omega

theorem map_charAt_inj (pool : String) (hp : pool.data.length = 63) (hn : pool.data.Nodup) :
    ∀ a b : List Int, DigitsOk a → DigitsOk b →
      a.map (charAt pool) = b.map (charAt pool) → a = b
  | [], [], _, _, _ => rfl
  | [], _ :: _, _, _, h => by simp at h
  | _ :: _, [], _, _, h => by simp at h
  | x :: a, y :: b, ha, hb, h => by
    simp only [List.map_cons, List.cons.injEq] at h
    have hxy := charAt_inj pool hp hn x y (ha x (List.mem_cons_self _ _))
      (hb y (List.mem_cons_self _ _)) h.1
    have hab := map_charAt_inj pool hp hn a b
      (fun d hd => ha d (List.mem_cons_of_mem _ hd))
      (fun d hd => hb d (List.mem_cons_of_mem _ hd)) h.2
    rw [hxy, hab]

theorem idChars_take (pool : String) (t : Int) (ds : List Int) :
    (idChars pool t ds).take 8 = (timeDigits 8 t).map (charAt pool) := by
  unfold idChars
  rw [List.take_append_eq_append_take]
  simp [timeDigits_length]

theorem idChars_drop (pool : String) (t : Int) (ds : List Int) :
    (idChars pool t ds).drop 8 = (ds.map (charAt pool)).reverse := by
  unfold idChars
  rw [List.drop_append_eq_append_drop]
  simp [timeDigits_length]

theorem nextDigits_collision (s : State) (t : Int) (pool : String) (hs : Valid s) :
    nextDigits (generate s t pool).1 t = incDigits (nextDigits s t) := by
  rw [generate_fst s hs]
  simp [nextDigits]

theorem decode_suffix (pool : String) (hp : pool.data.length = 63) (hn : pool.data.Nodup) :
    ∀ ds : List Int, DigitsOk ds →
      decode pool ((ds.map (charAt pool)).reverse) = digitsVal ds
  | [], _ => by simp [decode, digitsVal]
  | d :: ds, hok => by
    have hd := hok d (List.mem_cons_self _ _)
    have hrest : DigitsOk ds := fun x hx => hok x (List.mem_cons_of_mem _ hx)
    have ih := decode_suffix pool hp hn ds hrest
    have hlen : (pool.length : Int) = charlen := by
      rw [charlen_eq]; show ((pool.data.length : Nat) : Int) = 63; rw [hp]; rfl
    have hd1 : d.toNat < pool.data.length := by rw [charlen_eq] at hd; omega
    have hidx : (pool.data.indexOf (charAt pool d) : Int) = d := by
      unfold charAt
      rw [List.getD_eq_getElem _ _ hd1, List.indexOf_getElem hn]
      omega
    unfold decode at ih ⊢
    rw [List.map_cons, List.reverse_cons, List.foldl_append]
    simp only [List.foldl_cons, List.foldl_nil]
    rw [ih, hidx, hlen]
    simp only [digitsVal]
    ring


theorem generate_twice (s : State) (hs : Valid s) (t : Int) (ht : 0 ≤ t) (pool : String)
    (hp : pool.data.length = 63) :
    (generate s t pool).1.lastRandChars = nextDigits s t ∧
    (generate s t pool).2 = some (String.mk (idChars pool t (nextDigits s t))) ∧
    (generate (generate s t pool).1 t pool).2 =
      some (String.mk (idChars pool t (incDigits (nextDigits s t)))) := by
  refine ⟨by rw [generate_fst s hs], generate_snd s hs t ht pool hp, ?_⟩
  rw [generate_snd _ (generate_valid s hs t pool) t ht pool hp, nextDigits_collision s t pool hs]

theorem suffix_lt_ascending (ds : List Int) (hok : DigitsOk ds)
    (hne : ds ≠ List.replicate ds.length (charlen - 1)) (t : Int) :
    List.Lex (· < ·) (idChars pushChars t ds) (idChars pushChars t (incDigits ds)) := by
  unfold idChars
  apply List.Lex.append_left
  rw [← List.map_reverse, ← List.map_reverse]
  exact lex_map_mono _ (lex_reverse_incDigits ds hok hne) (by simp [incDigits_length])
    (fun x hx y hy hxy => charAt_pushChars_lt x y (hok x (List.mem_reverse.mp hx)).1 hxy
      (incDigits_ok ds hok y (List.mem_reverse.mp hy)).2)

theorem suffix_gt_descending (ds : List Int) (hok : DigitsOk ds)
    (hne : ds ≠ List.replicate ds.length (charlen - 1)) (t : Int) :
    List.Lex (· < ·) (idChars pushCharsReverse t (incDigits ds))
      (idChars pushCharsReverse t ds) := by
  unfold idChars
  apply List.Lex.append_left
  rw [← List.map_reverse, ← List.map_reverse]
  exact lex_map_anti _ (lex_reverse_incDigits ds hok hne) (by simp [incDigits_length])
    (fun x hx y hy hxy => charAt_pushCharsReverse_lt x y (hok x (List.mem_reverse.mp hx)).1
      hxy (incDigits_ok ds hok y (List.mem_reverse.mp hy)).2)

/-- C4: for a timestamp `t ≥ 0` and a valid state, two consecutive calls with the same
`t` are strictly monotonic as long as the 12 suffix digits before the second call are not
all `charlen - 1`: the second `AscendingFrom t` identifier is strictly greater than the
first, and the second `DescendingFrom t` identifier is strictly smaller than the first. -/
theorem same_timestamp_strictly_monotonic (s : State) (hs : Valid s) (t : Int)
    (ht : 0 ≤ t) :
    ((AscendingFrom s t).1.lastRandChars ≠ List.replicate 12 (charlen - 1) →
      ∃ id1 id2, (AscendingFrom s t).2 = some id1 ∧
        (AscendingFrom (AscendingFrom s t).1 t).2 = some id2 ∧ id1 < id2) ∧
    ((DescendingFrom s t).1.lastRandChars ≠ List.replicate 12 (charlen - 1) →
      ∃ id1 id2, (DescendingFrom s t).2 = some id1 ∧
        (DescendingFrom (DescendingFrom s t).1 t).2 = some id2 ∧ id2 < id1) := by
  have hl := nextDigits_length s hs t
  have hok := nextDigits_ok s hs t
  constructor
  · intro hne
    obtain ⟨h1, h2, h3⟩ := generate_twice s hs t ht pushChars pushChars_length
    refine ⟨_, _, h2, h3, string_lt_mk _ _ (suffix_lt_ascending _ hok ?_ t)⟩
    rw [hl, ← h1]; exact hne
  · intro hne
    obtain ⟨h1, h2, h3⟩ := generate_twice s hs t ht pushCharsReverse pushCharsReverse_length
    refine ⟨_, _, h2, h3, string_lt_mk _ _ (suffix_gt_descending _ hok ?_ t)⟩
    rw [hl, ← h1]; exact hne

theorem same_timestamp_strictly_monotonic_witness :
    (∃ id1 id2, (AscendingFrom carryState 5).2 = some id1 ∧
        (AscendingFrom (AscendingFrom carryState 5).1 5).2 = some id2 ∧ id1 < id2) ∧
    (∃ id1 id2, (DescendingFrom carryState 5).2 = some id1 ∧
        (DescendingFrom (DescendingFrom carryState 5).1 5).2 = some id2 ∧ id2 < id1) :=
  ⟨(same_timestamp_strictly_monotonic carryState (by decide) 5 (by decide)).1 (by decide),
   (same_timestamp_strictly_monotonic carryState (by decide) 5 (by decide)).2 (by decide)⟩

theorem generate_twice_suffix (s : State) (hs : Valid s) (t : Int) (ht : 0 ≤ t)
    (pool : String) (hp : pool.data.length = 63) (hn : pool.data.Nodup) :
    ∃ id1 id2, (generate s t pool).2 = some id1 ∧
      (generate (generate s t pool).1 t pool).2 = some id2 ∧
      id1.data.take 8 = id2.data.take 8 ∧ id1.data.drop 8 ≠ id2.data.drop 8 ∧
      ((generate s t pool).1.lastRandChars ≠ List.replicate 12 (charlen - 1) →
        decode pool (id2.data.drop 8) = decode pool (id1.data.drop 8) + 1) := by
  have hl := nextDigits_length s hs t
  have hok := nextDigits_ok s hs t
  obtain ⟨h1, h2, h3⟩ := generate_twice s hs t ht pool hp
  refine ⟨_, _, h2, h3, ?_, ?_, ?_⟩
  · show (idChars pool t _).take 8 = (idChars pool t _).take 8
    rw [idChars_take, idChars_take]
  · show (idChars pool t _).drop 8 ≠ (idChars pool t _).drop 8
    rw [idChars_drop, idChars_drop]
    intro h
    have h2 := map_charAt_inj pool hp hn _ _ hok (incDigits_ok _ hok) (List.reverse_injective h)
    exact incDigits_ne _ (by intro h0; rw [h0] at hl; simp at hl) hok h2.symm
  · intro hne
    show decode pool ((idChars pool t _).drop 8) = decode pool ((idChars pool t _).drop 8) + 1
    rw [idChars_drop, idChars_drop, decode_suffix pool hp hn _ hok,
      decode_suffix pool hp hn _ (incDigits_ok _ hok)]
    apply digitsVal_incDigits _ hok
    rw [hl, ← h1]; exact hne

/-- C5: for a timestamp `t ≥ 0` and a valid state, two consecutive calls of
`AscendingFrom t` (likewise of `DescendingFrom t`) return identifiers with the same first
8 characters and different 12-character suffixes; when the counter does not overflow (the
digits before the second call are not all `charlen - 1`), the second suffix, read as a
number in the base of the alphabet used (digit = index of the character in that alphabet,
leftmost character most significant), is the first suffix plus one. -/
theorem same_timestamp_suffix_plus_one (s : State) (hs : Valid s) (t : Int) (ht : 0 ≤ t) :
    (∃ id1 id2, (AscendingFrom s t).2 = some id1 ∧
      (AscendingFrom (AscendingFrom s t).1 t).2 = some id2 ∧
      id1.data.take 8 = id2.data.take 8 ∧ id1.data.drop 8 ≠ id2.data.drop 8 ∧
      ((AscendingFrom s t).1.lastRandChars ≠ List.replicate 12 (charlen - 1) →
        decode pushChars (id2.data.drop 8) = decode pushChars (id1.data.drop 8) + 1)) ∧
    (∃ id1 id2, (DescendingFrom s t).2 = some id1 ∧
      (DescendingFrom (DescendingFrom s t).1 t).2 = some id2 ∧
      id1.data.take 8 = id2.data.take 8 ∧ id1.data.drop 8 ≠ id2.data.drop 8 ∧
      ((DescendingFrom s t).1.lastRandChars ≠ List.replicate 12 (charlen - 1) →
        decode pushCharsReverse (id2.data.drop 8) =
          decode pushCharsReverse (id1.data.drop 8) + 1)) :=
  ⟨generate_twice_suffix s hs t ht pushChars pushChars_length pushChars_nodup,
   generate_twice_suffix s hs t ht pushCharsReverse pushCharsReverse_length
     pushCharsReverse_nodup⟩

theorem same_timestamp_suffix_plus_one_witness :
    Valid carryState ∧
    (∃ id1 id2, (AscendingFrom carryState 5).2 = some id1 ∧
      (AscendingFrom (AscendingFrom carryState 5).1 5).2 = some id2 ∧
      id1.data.take 8 = id2.data.take 8 ∧ id1.data.drop 8 ≠ id2.data.drop 8 ∧
      ((AscendingFrom carryState 5).1.lastRandChars ≠ List.replicate 12 (charlen - 1) →
        decode pushChars (id2.data.drop 8) = decode pushChars (id1.data.drop 8) + 1)) ∧
    (∃ id1 id2, (DescendingFrom carryState 5).2 = some id1 ∧
      (DescendingFrom (DescendingFrom carryState 5).1 5).2 = some id2 ∧
      id1.data.take 8 = id2.data.take 8 ∧ id1.data.drop 8 ≠ id2.data.drop 8 ∧
      ((DescendingFrom carryState 5).1.lastRandChars ≠ List.replicate 12 (charlen - 1) →
        decode pushCharsReverse (id2.data.drop 8) =
          decode pushCharsReverse (id1.data.drop 8) + 1)) :=
  ⟨by decide, same_timestamp_suffix_plus_one carryState (by decide) 5 (by decide)⟩


/-! ## Sequences of calls of one variant -/

theorem foldl_generate_valid (pool : String) (l : List Int) : ∀ s : State, Valid s →
    Valid (l.foldl (fun st t => (generate st t pool).1) s) := by
  induction l with
  | nil => intro s hs; exact hs
  | cons t l ih => intro s hs; exact ih _ (generate_valid s hs t pool)

theorem stateBefore_valid (pool : String) (s : State) (hs : Valid s) (ts : List Int)
    (k : Nat) : Valid (stateBefore pool s ts k) :=
  foldl_generate_valid pool _ s hs

theorem stateBefore_succ (pool : String) (s : State) (ts : List Int) (k : Nat)
    (hk : k < ts.length) :
    stateBefore pool s ts (k + 1) =
      (generate (stateBefore pool s ts k) (ts.getD k 0) pool).1 := by
  unfold stateBefore
  rw [List.take_succ, List.foldl_append, List.getElem?_eq_getElem hk,
    List.getD_eq_getElem _ _ hk]
  rfl

/-- The suffix digits emitted by call number `k`. -/
theorem emitted_step (pool : String) (s : State) (hs : Valid s) (ts : List Int)
    (hno : ∀ k < ts.length, ¬ overflowsAt pool s ts k) (k : Nat) (hk : k + 1 < ts.length)
    (heq : ts.getD (k + 1) 0 = ts.getD k 0) :
    digitsVal (nextDigits (stateBefore pool s ts (k + 1)) (ts.getD (k + 1) 0)) =
      digitsVal (nextDigits (stateBefore pool s ts k) (ts.getD k 0)) + 1 := by
  have hv := stateBefore_valid pool s hs ts k
  have hsucc := stateBefore_succ pool s ts k (by omega)
  have hst : stateBefore pool s ts (k + 1) =
      { lastPushTimeMs := ts.getD k 0,
        lastRandChars := nextDigits (stateBefore pool s ts k) (ts.getD k 0) } := by
    rw [hsucc, generate_fst _ hv]
  have hnok := hno (k + 1) hk
  unfold overflowsAt at hnok
  rw [hst] at hnok ⊢
  simp only [heq, true_and] at hnok
  have hcol : nextDigits
      { lastPushTimeMs := ts.getD k 0,
        lastRandChars := nextDigits (stateBefore pool s ts k) (ts.getD k 0) }
      (ts.getD (k + 1) 0) = incDigits (nextDigits (stateBefore pool s ts k) (ts.getD k 0)) := by
    show (if ts.getD (k + 1) 0 = ts.getD k 0 then _ else _) = _
    rw [if_pos heq]
  rw [hcol]
  apply digitsVal_incDigits _ (nextDigits_ok _ hv _)
  rw [nextDigits_length _ hv]
  exact hnok

theorem emitted_run (pool : String) (s : State) (hs : Valid s) (ts : List Int)
    (hno : ∀ k < ts.length, ¬ overflowsAt pool s ts k) (i : Nat) (m : Nat) :
    i + m < ts.length → (∀ k, i ≤ k → k ≤ i + m → ts.getD k 0 = ts.getD i 0) →
    digitsVal (nextDigits (stateBefore pool s ts (i + m)) (ts.getD (i + m) 0)) =
      digitsVal (nextDigits (stateBefore pool s ts i) (ts.getD i 0)) + m := by
  induction m with
  | zero => intro _ _; simp
  | succ m ih =>
    intro hlen hrun
    have h1 := ih (by omega) (fun k hk1 hk2 => hrun k hk1 (by omega))
    have h2 := emitted_step pool s hs ts hno (i + m) (by omega)
      (by rw [hrun (i + m + 1) (by omega) (by omega), hrun (i + m) (by omega) (by omega)])
    rw [← Nat.add_assoc, h2, h1]
    push_cast
    ring

theorem run_outputs_distinct (pool : String) (hp : pool.data.length = 63)
    (hn : pool.data.Nodup) (s : State) (hs : Valid s) (ts : List Int)
    (hts : ∀ t ∈ ts, 0 ≤ t ∧ t < charlen ^ 8)
    (hno : ∀ k < ts.length, ¬ overflowsAt pool s ts k) (i j : Nat) (hij : i < j)
    (hj : j < ts.length) (hrun : ∀ k, i ≤ k → k ≤ j → ts.getD k 0 = ts.getD i 0) :
    ∃ id1 id2, output pool s ts i = some id1 ∧ output pool s ts j = some id2 ∧
      id1 ≠ id2 := by
  have hvi := stateBefore_valid pool s hs ts i
  have hvj := stateBefore_valid pool s hs ts j
  have hti : 0 ≤ ts.getD i 0 := by
    rw [List.getD_eq_getElem _ _ (by omega)]
    exact (hts _ (List.getElem_mem _)).1
  have htj : ts.getD j 0 = ts.getD i 0 := hrun j (by omega) (by omega)
  obtain ⟨m, rfl⟩ : ∃ m, j = i + m := ⟨j - i, by omega⟩
  have hval := emitted_run pool s hs ts hno i m hj hrun
  refine ⟨_, _, generate_snd _ hvi _ hti pool hp,
    generate_snd _ hvj _ (by rw [htj]; exact hti) pool hp, ?_⟩
  intro h
  have h2 : idChars pool (ts.getD i 0) (nextDigits (stateBefore pool s ts i) (ts.getD i 0)) =
      idChars pool (ts.getD (i + m) 0)
        (nextDigits (stateBefore pool s ts (i + m)) (ts.getD (i + m) 0)) :=
    congrArg String.data h
  have h3 := congrArg (List.drop 8) h2
  rw [idChars_drop, idChars_drop] at h3
  have h4 := map_charAt_inj pool hp hn _ _ (nextDigits_ok _ hvi _) (nextDigits_ok _ hvj _)
    (List.reverse_injective h3)
  rw [← h4] at hval
  omega

/-- What the comparison with the last timestamp does guarantee: from a valid state, in a
sequence of `AscendingFrom` calls (likewise of `DescendingFrom` calls) with timestamps in
`[0, charlen ^ 8)` and no suffix-counter overflow, two calls `i < j` with the same
timestamp, such that every call between them has that timestamp too, return different
identifiers. -/
theorem adjacent_same_timestamp_distinct (s : State) (hs : Valid s) (ts : List Int)
    (hts : ∀ t ∈ ts, 0 ≤ t ∧ t < charlen ^ 8) (i j : Nat) (hij : i < j)
    (hj : j < ts.length) (hrun : ∀ k, i ≤ k → k ≤ j → ts.getD k 0 = ts.getD i 0) :
    ((∀ k < ts.length, ¬ overflowsAt pushChars s ts k) →
      ∃ id1 id2, output pushChars s ts i = some id1 ∧ output pushChars s ts j = some id2 ∧
        id1 ≠ id2) ∧
    ((∀ k < ts.length, ¬ overflowsAt pushCharsReverse s ts k) →
      ∃ id1 id2, output pushCharsReverse s ts i = some id1 ∧
        output pushCharsReverse s ts j = some id2 ∧ id1 ≠ id2) :=
  ⟨fun hno => run_outputs_distinct pushChars pushChars_length pushChars_nodup s hs ts hts hno
      i j hij hj hrun,
   fun hno => run_outputs_distinct pushCharsReverse pushCharsReverse_length
      pushCharsReverse_nodup s hs ts hts hno i j hij hj hrun⟩

theorem adjacent_same_timestamp_distinct_witness :
    (∃ id1 id2, output pushChars carryState [3, 7, 7, 7, 2] 1 = some id1 ∧
        output pushChars carryState [3, 7, 7, 7, 2] 3 = some id2 ∧ id1 ≠ id2) ∧
    (∃ id1 id2, output pushCharsReverse carryState [3, 7, 7, 7, 2] 1 = some id1 ∧
        output pushCharsReverse carryState [3, 7, 7, 7, 2] 3 = some id2 ∧ id1 ≠ id2) :=
  ⟨(adjacent_same_timestamp_distinct carryState (by decide) [3, 7, 7, 7, 2] (by decide) 1 3
      (by decide) (by decide)
      (by intro k h1 h2; interval_cases k <;> rfl)).1 (by decide),
   (adjacent_same_timestamp_distinct carryState (by decide) [3, 7, 7, 7, 2] (by decide) 1 3
      (by decide) (by decide)
      (by intro k h1 h2; interval_cases k <;> rfl)).2 (by decide)⟩

/-- C6 is broken by the code: from the valid all-zero state the calls `AscendingFrom 5`,
`AscendingFrom 6`, `AscendingFrom 5` have timestamps in `[0, charlen ^ 8)` and overflow
nothing, yet the first and the third call, made with the same timestamp, both return
`00000005000000000000`; likewise `zzzzzzzuzzzzzzzzzzzz` for `DescendingFrom`.  The variable
`lastPushTimeMs`, kept `to prevent local collisions if you push twice in one ms`, remembers
the last timestamp only, and the suffix is never drawn again. -/
theorem interleaved_timestamp_repeats_identifier :
    Valid zeroState ∧ (∀ t ∈ [(5 : Int), 6, 5], 0 ≤ t ∧ t < charlen ^ 8) ∧
    (∀ k < [(5 : Int), 6, 5].length, ¬ overflowsAt pushChars zeroState [5, 6, 5] k) ∧
    (∀ k < [(5 : Int), 6, 5].length, ¬ overflowsAt pushCharsReverse zeroState [5, 6, 5] k) ∧
    output pushChars zeroState [5, 6, 5] 0 = some "00000005000000000000" ∧
    output pushChars zeroState [5, 6, 5] 1 = some "00000006000000000000" ∧
    output pushChars zeroState [5, 6, 5] 2 = some "00000005000000000000" ∧
    output pushCharsReverse zeroState [5, 6, 5] 0 = some "zzzzzzzuzzzzzzzzzzzz" ∧
    output pushCharsReverse zeroState [5, 6, 5] 2 = some "zzzzzzzuzzzzzzzzzzzz" := by
  decide

/-- In general form: it is not the case that, in every overflow-free sequence of
`AscendingFrom` calls from a valid state, two calls with the same timestamp return
different identifiers. -/
theorem same_timestamp_not_always_distinct :
    ¬ (∀ (s : State) (ts : List Int) (i j : Nat), Valid s →
        (∀ t ∈ ts, 0 ≤ t ∧ t < charlen ^ 8) →
        (∀ k < ts.length, ¬ overflowsAt pushChars s ts k) →
        i < j → j < ts.length → ts.getD i 0 = ts.getD j 0 →
        output pushChars s ts i ≠ output pushChars s ts j) := by
  intro h
  exact h zeroState [5, 6, 5] 0 2 (by decide) (by decide) (by decide) (by decide) (by decide)
    (by decide) (by decide)


/-! ## Consecutive calls return different identifiers -/

theorem lex_lt_ne (a b : List Char) (h : List.Lex (· < ·) a b) : a ≠ b := by
  intro hab
  subst hab
  exact lt_irrefl a h

/-- C7: from a valid state, for timestamps `t1`, `t2` in `[0, charlen ^ 8)`, equal or
not, the consecutive calls `AscendingFrom t1` then `AscendingFrom t2` return two different
identifiers; this includes `t1 = t2` with a suffix counter that wraps around. -/
theorem consecutive_ascending_distinct (s : State) (hs : Valid s) (t1 t2 : Int)
    (h1 : 0 ≤ t1 ∧ t1 < charlen ^ 8) (h2 : 0 ≤ t2 ∧ t2 < charlen ^ 8) :
    ∃ id1 id2, (AscendingFrom s t1).2 = some id1 ∧
      (AscendingFrom (AscendingFrom s t1).1 t2).2 = some id2 ∧ id1 ≠ id2 := by
  rcases lt_trichotomy t1 t2 with hlt | heq | hgt
  · refine ⟨_, _, generate_snd s hs t1 h1.1 pushChars pushChars_length,
      generate_snd _ (generate_valid s hs t1 pushChars) t2 h2.1 pushChars pushChars_length, ?_⟩
    intro h
    exact lex_lt_ne _ _ (idChars_lt_of_time_lt t1 t2 h1.1 hlt h2.2 _ _) (congrArg String.data h)
  · subst heq
    obtain ⟨id1, id2, e1, e2, _, hne, _⟩ :=
      generate_twice_suffix s hs t1 h1.1 pushChars pushChars_length pushChars_nodup
    exact ⟨id1, id2, e1, e2, fun h => hne (by rw [h])⟩
  · refine ⟨_, _, generate_snd s hs t1 h1.1 pushChars pushChars_length,
      generate_snd _ (generate_valid s hs t1 pushChars) t2 h2.1 pushChars pushChars_length, ?_⟩
    intro h
    exact lex_lt_ne _ _ (idChars_lt_of_time_lt t2 t1 h2.1 hgt h1.2 _ _)
      (congrArg String.data h).symm

theorem consecutive_ascending_distinct_witness :
    (AscendingFrom maxState 9).1.lastRandChars = List.replicate 12 (charlen - 1) ∧
    ∃ id1 id2, (AscendingFrom maxState 9).2 = some id1 ∧
      (AscendingFrom (AscendingFrom maxState 9).1 9).2 = some id2 ∧ id1 ≠ id2 :=
  ⟨by decide, consecutive_ascending_distinct maxState (by decide) 9 9 (by decide) (by decide)⟩

/-! ## Negative timestamps -/

theorem index_mem (pool : String) (n : Int) (c : Char) (h : index pool n = some c) :
    c ∈ pool.data := by
  unfold index at h
  split at h
  · exact absurd h (by simp)
  · exact List.getElem?_mem h

theorem putTime_some (pool : String) (k : Nat) : ∀ (t : Int) (id r : List Char),
    k ≤ id.length → putTime pool k t id = some r →
    ∃ cs : List Char, cs.length = k ∧ (∀ c ∈ cs, c ∈ pool.data) ∧ r = cs ++ id.drop k := by
  induction k with
  | zero => intro t id r _ h; exact ⟨[], rfl, by simp, by simpa [putTime] using h.symm⟩
  | succ k ih =>
    intro t id r hk h
    unfold putTime at h
    cases hc : index pool (Int.tmod t charlen) with
    | none => rw [hc] at h; exact absurd h (by simp)
    | some c =>
      rw [hc] at h
      obtain ⟨cs, hlen, hmem, hr⟩ := ih _ _ r (by simp; omega) h
      refine ⟨cs ++ [c], by simp [hlen], ?_, ?_⟩
      · intro x hx
        rcases List.mem_append.mp hx with hx | hx
        · exact hmem x hx
        · rw [List.mem_singleton.mp hx]; exact index_mem pool _ c hc
      · rw [hr, drop_self_set id k c (by omega)]; simp

theorem generate_some_wellformed (s : State) (hs : Valid s) (t : Int) (pool : String)
    (hp : pool.data.length = 63) (id : String) (h : (generate s t pool).2 = some id) :
    id.length = 20 ∧ ∀ c ∈ id.data, c ∈ pool.data := by
  have hfst := generate_fst s hs t pool
  have hd : (generate s t pool).1.lastRandChars = nextDigits s t := by rw [hfst]
  have hl := nextDigits_length s hs t
  have hok := nextDigits_ok s hs t
  unfold generate at hd h
  simp only [] at hd h
  rw [hd, putRandom_eq pool hp _ hl hok 12 0 _ (by rfl) (by simp)] at h
  simp only [Option.some_bind] at h
  cases hpt : putTime pool 8 t
      (List.take 8 (List.replicate 20 (Char.ofNat 0)) ++
        (List.map (charAt pool) (List.drop 0 (nextDigits s t))).reverse ++
        List.drop (20 - 0) (List.replicate 20 (Char.ofNat 0))) with
  | none => rw [hpt] at h; exact absurd h (by simp)
  | some r =>
    rw [hpt] at h
    obtain ⟨cs, hlen, hmem, hr⟩ := putTime_some pool 8 t _ r (by simp [hl]) hpt
    have hid : id = String.mk r := by simpa using h.symm
    have hr2 : r = cs ++ ((nextDigits s t).map (charAt pool)).reverse := by
      rw [hr]; simp
    subst hid
    constructor
    · show r.length = 20
      rw [hr2]; simp [hlen, hl]
    · intro c hc
      have hc2 : c ∈ r := hc
      rw [hr2] at hc2
      rcases List.mem_append.mp hc2 with hx | hx
      · exact hmem c hx
      · simp only [List.mem_reverse, List.mem_map] at hx
        obtain ⟨d, hd1, rfl⟩ := hx
        exact charAt_mem pool hp d (hok d hd1).1 (hok d hd1).2

/-- C8, as amended: from a valid state, `AscendingFrom` and `DescendingFrom` never fail on
a timestamp `t ≥ 0`, and for every timestamp, negative ones included, an identifier that
is returned is well formed: 20 characters of the alphabet used.  (A negative timestamp
can make the call fail; see the counterexample.) -/
theorem total_on_nonnegative_timestamps (s : State) (hs : Valid s) (t : Int) :
    (0 ≤ t → (∃ id, (AscendingFrom s t).2 = some id) ∧
      (∃ id, (DescendingFrom s t).2 = some id)) ∧
    (∀ id, (AscendingFrom s t).2 = some id →
      id.length = 20 ∧ ∀ c ∈ id.data, c ∈ pushChars.data) ∧
    (∀ id, (DescendingFrom s t).2 = some id →
      id.length = 20 ∧ ∀ c ∈ id.data, c ∈ pushCharsReverse.data) :=
  ⟨fun ht => ⟨⟨_, generate_snd s hs t ht pushChars pushChars_length⟩,
      ⟨_, generate_snd s hs t ht pushCharsReverse pushCharsReverse_length⟩⟩,
   fun id h => generate_some_wellformed s hs t pushChars pushChars_length id h,
   fun id h => generate_some_wellformed s hs t pushCharsReverse pushCharsReverse_length id h⟩

theorem total_on_nonnegative_timestamps_witness :
    ((∃ id, (AscendingFrom carryState 0).2 = some id) ∧
      (∃ id, (DescendingFrom carryState 0).2 = some id)) ∧
    ("00000000000000000zzz".length = 20 ∧
      ∀ c ∈ "00000000000000000zzz".data, c ∈ pushChars.data) :=
  ⟨(total_on_nonnegative_timestamps carryState (by decide) 0).1 (by decide),
   (total_on_nonnegative_timestamps carryState (by decide) (-(63 ^ 8))).2.1
     "00000000000000000zzz" (by decide)⟩

/-- C8, as stated, fails: the timestamp `-1` is a 64-bit integer and the state is valid,
yet both calls index the alphabet at `-1 % 63 = -1` and fail. -/
theorem negative_timestamp_fails :
    Valid zeroState ∧ (-(2 : Int) ^ 63 ≤ -1 ∧ (-1 : Int) < 2 ^ 63) ∧
    (AscendingFrom zeroState (-1)).2 = none ∧ (DescendingFrom zeroState (-1)).2 = none := by
  decide


/-! ## The timestamp characters -/

theorem int_div_div (t : Int) (ht : 0 ≤ t) (a b : Nat) :
    t / (a : Int) / (b : Int) = t / ((a : Int) * (b : Int)) := by
  obtain ⟨n, rfl⟩ := Int.eq_ofNat_of_zero_le ht
  norm_cast
  exact Nat.div_div_eq_div_mul n a b

theorem int_mod_mul_div (t : Int) (ht : 0 ≤ t) (a b : Nat) :
    t % ((a : Int) * (b : Int)) / (a : Int) = t / (a : Int) % (b : Int) := by
  obtain ⟨n, rfl⟩ := Int.eq_ofNat_of_zero_le ht
  norm_cast
  exact Nat.mod_mul_right_div_self n a b

theorem timeDigits_getElem (k : Nat) : ∀ t : Int, 0 ≤ t → ∀ i : Nat, i < k →
    (timeDigits k t)[i]? = some (t / charlen ^ (k - 1 - i) % charlen) := by
  induction k with
  | zero => intro t _ i hi; omega
  | succ k ih =>
    intro t ht i hi
    have hq : 0 ≤ t / charlen := Int.ediv_nonneg ht (by rw [charlen_eq]; omega)
    unfold timeDigits
    by_cases hik : i < k
    · rw [List.getElem?_append_left (by rw [timeDigits_length]; exact hik), ih _ hq i hik]
      have he : k + 1 - 1 - i = (k - 1 - i) + 1 := by omega
      rw [he, pow_succ', charlen_eq]
      have := int_div_div t ht 63 (63 ^ (k - 1 - i))
      push_cast at this
      rw [this]
    · have hik2 : i = k := by omega
      subst hik2
      rw [List.getElem?_append_right (by rw [timeDigits_length])]
      simp [timeDigits_length]

theorem timeDigits_mod (k : Nat) : ∀ t : Int, 0 ≤ t →
    timeDigits k (t % charlen ^ k) = timeDigits k t := by
  induction k with
  | zero => intro t _; rfl
  | succ k ih =>
    intro t ht
    have hq : 0 ≤ t / charlen := Int.ediv_nonneg ht (by rw [charlen_eq]; omega)
    unfold timeDigits
    have h1 : t % charlen ^ (k + 1) % charlen = t % charlen :=
      Int.emod_emod_of_dvd t (Dvd.intro_left (charlen ^ k) (by rw [pow_succ]))
    have h2 : t % charlen ^ (k + 1) / charlen = t / charlen % charlen ^ k := by
      rw [pow_succ', charlen_eq]
      have := int_mod_mul_div t ht 63 (63 ^ k)
      push_cast at this
      exact this
    rw [h1, h2, ih _ hq]

theorem charAt_getElem (pool : String) (d : Int) (hd : d.toNat < pool.data.length) :
    some (charAt pool d) = pool.data[d.toNat]? := by
  unfold charAt
  rw [List.getD_eq_getElem _ _ hd, List.getElem?_eq_getElem hd]

theorem idChars_getElem (pool : String) (hp : pool.data.length = 63) (t : Int) (ht : 0 ≤ t)
    (ds : List Int) (i : Nat) (hi : i < 8) :
    (idChars pool t ds)[i]? = pool.data[(t / charlen ^ (7 - i) % charlen).toNat]? := by
  have hlt : t / charlen ^ (7 - i) % charlen < charlen :=
    Int.emod_lt_of_pos _ (by rw [charlen_eq]; omega)
  have h0 : 0 ≤ t / charlen ^ (7 - i) % charlen :=
    Int.emod_nonneg _ (by rw [charlen_eq]; omega)
  unfold idChars
  rw [List.getElem?_append_left (by simp [timeDigits_length]; exact hi), List.getElem?_map,
    timeDigits_getElem 8 t ht i hi, show 8 - 1 - i = 7 - i by omega]
  show some (charAt pool _) = _
  apply charAt_getElem
  have hc := charlen_eq
  rw [hp]
  omega

/-- C9, as amended: the base is `charlen = len(pushChars) = 63`, not 64.  From a valid
state and a timestamp `t ≥ 0`, the first 8 characters of `AscendingFrom t` are the 8
base-63 digits of `t`, most significant first: position `i` in `0..7` holds
`pushChars[(t / 63 ^ (7 - i)) mod 63]`; and `t` is encoded as `t mod 63 ^ 8`, so that a
timestamp of `63 ^ 8` or more wraps silently. -/
theorem timestamp_chars_base_charlen (s : State) (hs : Valid s) (t : Int) (ht : 0 ≤ t) :
    charlen = 63 ∧
    ∃ id, (AscendingFrom s t).2 = some id ∧
      (∀ i : Fin 8, id.data[i.val]? =
        pushChars.data[(t / charlen ^ (7 - i.val) % charlen).toNat]?) ∧
      ∃ id2, (AscendingFrom s (t % charlen ^ 8)).2 = some id2 ∧
        id.data.take 8 = id2.data.take 8 := by
  have hm : 0 ≤ t % charlen ^ 8 := Int.emod_nonneg _ (by rw [charlen_eq]; norm_num)
  refine ⟨charlen_eq, _, generate_snd s hs t ht pushChars pushChars_length, ?_,
    _, generate_snd s hs _ hm pushChars pushChars_length, ?_⟩
  · intro i
    exact idChars_getElem pushChars pushChars_length t ht _ i.val i.isLt
  · show (idChars pushChars t _).take 8 = (idChars pushChars (t % charlen ^ 8) _).take 8
    rw [idChars_take, idChars_take, timeDigits_mod 8 t ht]

theorem timestamp_chars_base_charlen_witness :
    charlen = 63 ∧
    ∃ id, (AscendingFrom zeroState (63 ^ 8 + 64)).2 = some id ∧
      (∀ i : Fin 8, id.data[i.val]? =
        pushChars.data[((63 ^ 8 + 64) / charlen ^ (7 - i.val) % charlen).toNat]?) ∧
      ∃ id2, (AscendingFrom zeroState ((63 ^ 8 + 64) % charlen ^ 8)).2 = some id2 ∧
        id.data.take 8 = id2.data.take 8 :=
  timestamp_chars_base_charlen zeroState (by decide) (63 ^ 8 + 64) (by decide)

/-- C9, as stated, fails: for `t = 64` the code returns the timestamp characters
`00000011` (base 63), while the base-64 digits of the claim give `pushChars[1]` at
position 6 and `pushChars[0]` at position 7, that is `00000010`. -/
theorem timestamp_chars_not_base_64 :
    Valid zeroState ∧
    (AscendingFrom zeroState 64).2 = some "00000011000000000000" ∧
    "00000011000000000000".data[7]? = some '1' ∧
    pushChars.data[((64 : Int) / 64 ^ (7 - 7) % 64).toNat]? = some '0' := by
  decide

/-! ## The alphabets -/

/-- C10, as amended: `pushChars` has exactly 63 characters (indices 0..62), not 64; they
are ASCII, pairwise distinct and in strictly increasing order, and `pushCharsReverse` is
its exact reverse: `pushCharsReverse[i] = pushChars[62 - i]` for every `i` in `0..62`. -/
theorem alphabets_63_sorted_and_mirrored :
    pushChars.length = 63 ∧ pushChars.data.Nodup ∧
    pushChars.data.Pairwise (· < ·) ∧ (pushChars.data.all fun c => c.toNat < 128) = true ∧
    pushCharsReverse.length = 63 ∧ pushCharsReverse.data = pushChars.data.reverse ∧
    ∀ i : Fin 63, pushCharsReverse.data[i.val]? = pushChars.data[62 - i.val]? := by
  refine ⟨by decide, pushChars_nodup, pushChars_sorted, by decide, by decide,
    pushCharsReverse_eq, by decide⟩

/-- C10, as stated, fails: `pushChars` does not have 64 characters, index 63 does not
exist, and `pushCharsReverse[0]` is not `pushChars[63 - 0]`. -/
theorem alphabet_not_64 :
    pushChars.length ≠ 64 ∧ pushChars.data[63]? = none ∧
    pushCharsReverse.data[0]? ≠ pushChars.data[63 - 0]? := by
  decide


/-! ## Ascending and descending timestamps mirror each other -/

theorem pushCharsReverse_getElem :
    ∀ i : Fin 63, pushCharsReverse.data[i.val]? = pushChars.data[62 - i.val]? := by
  decide

theorem indexOf_pushChars (d : Nat) (hd : d < 63) (c : Char)
    (hc : pushChars.data[d]? = some c) : pushChars.data.indexOf c = d := by
  have hlt : d < pushChars.data.length := by rw [pushChars_length]; exact hd
  rw [List.getElem?_eq_getElem hlt] at hc
  rw [← Option.some.inj hc]
  exact List.indexOf_getElem pushChars_nodup d hlt

theorem indexOf_pushCharsReverse (d : Nat) (hd : d < 63) (c : Char)
    (hc : pushCharsReverse.data[d]? = some c) : pushCharsReverse.data.indexOf c = d := by
  have hlt : d < pushCharsReverse.data.length := by rw [pushCharsReverse_length]; exact hd
  rw [List.getElem?_eq_getElem hlt] at hc
  rw [← Option.some.inj hc]
  exact List.indexOf_getElem pushCharsReverse_nodup d hlt

/-- C11: for a timestamp `t ≥ 0` and any two valid states, the first 8 characters of
`AscendingFrom t` and of `DescendingFrom t` are position-wise alphabet mirrors: at each
position `i` in `0..7`, if the ascending character has index `k` in `pushChars`, the
descending character has index `len(pushChars) - 1 - k` in `pushChars`, that is, index `k`
in `pushCharsReverse`. -/
theorem timestamp_chars_mirrored (s1 s2 : State) (h1 : Valid s1) (h2 : Valid s2) (t : Int)
    (ht : 0 ≤ t) :
    ∃ ida idd, (AscendingFrom s1 t).2 = some ida ∧ (DescendingFrom s2 t).2 = some idd ∧
      ∀ i : Fin 8, ∃ ca cd, ida.data[i.val]? = some ca ∧ idd.data[i.val]? = some cd ∧
        pushChars.data.indexOf ca < pushChars.length ∧
        pushChars.data.indexOf cd = pushChars.length - 1 - pushChars.data.indexOf ca ∧
        pushCharsReverse.data.indexOf cd = pushChars.data.indexOf ca := by
  refine ⟨_, _, generate_snd s1 h1 t ht pushChars pushChars_length,
    generate_snd s2 h2 t ht pushCharsReverse pushCharsReverse_length, ?_⟩
  intro i
  have hlt : t / charlen ^ (7 - i.val) % charlen < charlen :=
    Int.emod_lt_of_pos _ (by rw [charlen_eq]; omega)
  have h0 : 0 ≤ t / charlen ^ (7 - i.val) % charlen :=
    Int.emod_nonneg _ (by rw [charlen_eq]; omega)
  have hc := charlen_eq
  have hd : (t / charlen ^ (7 - i.val) % charlen).toNat < 63 := by omega
  have ha := idChars_getElem pushChars pushChars_length t ht (nextDigits s1 t) i.val i.isLt
  have hb := idChars_getElem pushCharsReverse pushCharsReverse_length t ht (nextDigits s2 t)
    i.val i.isLt
  generalize (t / charlen ^ (7 - i.val) % charlen).toNat = d at hd ha hb
  have hd1 : d < pushChars.data.length := by rw [pushChars_length]; exact hd
  have hd2 : d < pushCharsReverse.data.length := by rw [pushCharsReverse_length]; exact hd
  have hd3 : 62 - d < pushChars.data.length := by rw [pushChars_length]; omega
  have hmir := pushCharsReverse_getElem ⟨d, hd⟩
  refine ⟨pushChars.data[d], pushCharsReverse.data[d], ?_, ?_, ?_, ?_, ?_⟩
  · rw [← List.getElem?_eq_getElem hd1]; exact ha
  · rw [← List.getElem?_eq_getElem hd2]; exact hb
  · rw [indexOf_pushChars d hd _ (List.getElem?_eq_getElem hd1)]
    show d < pushChars.data.length
    exact hd1
  · rw [indexOf_pushChars d hd _ (List.getElem?_eq_getElem hd1),
      indexOf_pushChars (62 - d) (by omega) _
        (by rw [← hmir]; exact List.getElem?_eq_getElem hd2)]
    show 62 - d = pushChars.data.length - 1 - d
    rw [pushChars_length]
  · rw [indexOf_pushChars d hd _ (List.getElem?_eq_getElem hd1),
      indexOf_pushCharsReverse d hd _ (List.getElem?_eq_getElem hd2)]

theorem timestamp_chars_mirrored_witness :
    ∃ ida idd, (AscendingFrom carryState 1700000000000).2 = some ida ∧
      (DescendingFrom maxState 1700000000000).2 = some idd ∧
      ∀ i : Fin 8, ∃ ca cd, ida.data[i.val]? = some ca ∧ idd.data[i.val]? = some cd ∧
        pushChars.data.indexOf ca < pushChars.length ∧
        pushChars.data.indexOf cd = pushChars.length - 1 - pushChars.data.indexOf ca ∧
        pushCharsReverse.data.indexOf cd = pushChars.data.indexOf ca :=
  timestamp_chars_mirrored carryState maxState (by decide) (by decide) 1700000000000
    (by decide)

/-! ## Timestamp zero and the sentinel constants -/

/-- C12: from a valid state, the first 8 characters of `AscendingFrom 0` are `00000000`
and the first 8 characters of `DescendingFrom 0` are `zzzzzzzz`. -/
theorem timestamp_zero_chars (s : State) (hs : Valid s) :
    (∃ id, (AscendingFrom s 0).2 = some id ∧ id.data.take 8 = "00000000".data) ∧
    (∃ id, (DescendingFrom s 0).2 = some id ∧ id.data.take 8 = "zzzzzzzz".data) := by
  constructor
  · refine ⟨_, generate_snd s hs 0 (le_refl 0) pushChars pushChars_length, ?_⟩
    show (idChars pushChars 0 _).take 8 = _
    rw [idChars_take]
    decide
  · refine ⟨_, generate_snd s hs 0 (le_refl 0) pushCharsReverse pushCharsReverse_length, ?_⟩
    show (idChars pushCharsReverse 0 _).take 8 = _
    rw [idChars_take]
    decide

theorem timestamp_zero_chars_witness :
    (∃ id, (AscendingFrom zeroState 0).2 = some id ∧ id.data.take 8 = "00000000".data) ∧
    (∃ id, (DescendingFrom zeroState 0).2 = some id ∧ id.data.take 8 = "zzzzzzzz".data) :=
  timestamp_zero_chars zeroState (by decide)


theorem not_lex_lt_replicate (m : Char) : ∀ l : List Char, (∀ c ∈ l, m ≤ c) →
    ¬ List.Lex (· < ·) l (List.replicate l.length m)
  | [], _ => by intro h; cases h
  | a :: l, hall => by
    intro h
    rw [List.length_cons, List.replicate_succ] at h
    cases h with
    | cons h2 =>
      exact not_lex_lt_replicate m l (fun c hc => hall c (List.mem_cons_of_mem _ hc)) h2
    | rel h2 => exact absurd h2 (not_lt.mpr (hall a (List.mem_cons_self _ _)))

theorem not_lex_replicate_lt (m : Char) : ∀ l : List Char, (∀ c ∈ l, c ≤ m) →
    ¬ List.Lex (· < ·) (List.replicate l.length m) l
  | [], _ => by intro h; cases h
  | a :: l, hall => by
    intro h
    rw [List.length_cons, List.replicate_succ] at h
    cases h with
    | cons h2 =>
      exact not_lex_replicate_lt m l (fun c hc => hall c (List.mem_cons_of_mem _ hc)) h2
    | rel h2 => exact absurd h2 (not_lt.mpr (hall a (List.mem_cons_self _ _)))

theorem pushChars_bounds : ∀ c ∈ pushChars.data, '0' ≤ c ∧ c ≤ 'z' := by decide

theorem pushCharsReverse_bounds : ∀ c ∈ pushCharsReverse.data, '0' ≤ c ∧ c ≤ 'z' := by
  intro c hc
  rw [pushCharsReverse_eq] at hc
  exact pushChars_bounds c (List.mem_reverse.mp hc)

theorem between_sentinels (id : String) (hlen : id.length = 20)
    (hall : ∀ c ∈ id.data, '0' ≤ c ∧ c ≤ 'z') :
    MAX_ASCENDING ≤ id ∧ id ≤ MAX_DESCENDING := by
  have hl : id.data.length = 20 := hlen
  constructor
  · rw [String.le_iff_toList_le]
    apply not_lt.mp
    intro h
    have h2 : List.Lex (· < ·) id.data (List.replicate id.data.length '0') := by
      rw [hl]; exact h
    exact not_lex_lt_replicate '0' id.data (fun c hc => (hall c hc).1) h2
  · rw [String.le_iff_toList_le]
    apply not_lt.mp
    intro h
    have h2 : List.Lex (· < ·) (List.replicate id.data.length 'z') id.data := by
      rw [hl]; exact h
    exact not_lex_replicate_lt 'z' id.data (fun c hc => (hall c hc).2) h2

/-- C13: `MAX_ASCENDING` is the string of 20 characters `0`, `MAX_DESCENDING` the string
of 20 characters `z`, and they bound every identifier: from a valid state and a timestamp
`t ≥ 0`, an identifier `id` returned by `AscendingFrom t` or `DescendingFrom t` satisfies
`MAX_ASCENDING ≤ id ≤ MAX_DESCENDING` in lexicographic order. -/
theorem identifiers_between_sentinels (s : State) (hs : Valid s) (t : Int) (ht : 0 ≤ t) :
    MAX_ASCENDING = String.mk (List.replicate 20 '0') ∧
    MAX_DESCENDING = String.mk (List.replicate 20 'z') ∧
    (∃ id, (AscendingFrom s t).2 = some id ∧ MAX_ASCENDING ≤ id ∧ id ≤ MAX_DESCENDING) ∧
    (∃ id, (DescendingFrom s t).2 = some id ∧ MAX_ASCENDING ≤ id ∧ id ≤ MAX_DESCENDING) := by
  refine ⟨by decide, by decide, ?_, ?_⟩
  · obtain ⟨id, hid, hlen, hmem⟩ := generate_wellformed s hs t ht pushChars pushChars_length
    exact ⟨id, hid, between_sentinels id hlen (fun c hc => pushChars_bounds c (hmem c hc))⟩
  · obtain ⟨id, hid, hlen, hmem⟩ :=
      generate_wellformed s hs t ht pushCharsReverse pushCharsReverse_length
    exact ⟨id, hid,
      between_sentinels id hlen (fun c hc => pushCharsReverse_bounds c (hmem c hc))⟩

theorem identifiers_between_sentinels_witness :
    MAX_ASCENDING = String.mk (List.replicate 20 '0') ∧
    MAX_DESCENDING = String.mk (List.replicate 20 'z') ∧
    (∃ id, (AscendingFrom maxState 0).2 = some id ∧
      MAX_ASCENDING ≤ id ∧ id ≤ MAX_DESCENDING) ∧
    (∃ id, (DescendingFrom maxState 0).2 = some id ∧
      MAX_ASCENDING ≤ id ∧ id ≤ MAX_DESCENDING) :=
  identifiers_between_sentinels maxState (by decide) 0 (by decide)


/-! ## The suffix characters and the stored digits -/

theorem idChars_suffix_getElem (pool : String) (hp : pool.data.length = 63) (t : Int)
    (ds : List Int) (hlen : ds.length = 12) (hok : DigitsOk ds) (i : Nat) (hi : i < 12) :
    (idChars pool t ds)[19 - i]? = pool.data[(ds.getD i 0).toNat]? := by
  have hlt : i < ds.length := by omega
  have hmem := hok _ (List.getElem_mem hlt)
  have hc := charlen_eq
  unfold idChars
  rw [List.getElem?_append_right (by simp [timeDigits_length]; omega)]
  have hidx : 19 - i - (List.map (charAt pool) (timeDigits 8 t)).length = 11 - i := by
    simp [timeDigits_length]; omega
  rw [hidx, List.getElem?_reverse (by simp [hlen]; omega)]
  have hidx2 : (List.map (charAt pool) ds).length - 1 - (11 - i) = i := by
    simp [hlen]; omega
  rw [hidx2, List.getElem?_map, List.getElem?_eq_getElem hlt, List.getD_eq_getElem _ _ hlt]
  show some (charAt pool _) = _
  apply charAt_getElem
  rw [hp]
  omega

theorem nextDigits_of_ne (s : State) (t : Int) (hne : t ≠ s.lastPushTimeMs) :
    nextDigits s t = s.lastRandChars := by
  unfold nextDigits
  rw [if_neg hne]

theorem generate_keeps_suffix (s : State) (hs : Valid s) (t : Int) (ht : 0 ≤ t)
    (hne : t ≠ s.lastPushTimeMs) (pool : String) (hp : pool.data.length = 63) :
    (generate s t pool).1.lastRandChars = s.lastRandChars ∧
    (∃ id, (generate s t pool).2 = some id ∧
      ∀ i : Fin 12, id.data[19 - i.val]? =
        pool.data[(s.lastRandChars.getD i.val 0).toNat]?) ∧
    (∀ t2 : Int, 0 ≤ t2 → t2 ≠ t →
      ∃ id1 id2, (generate s t pool).2 = some id1 ∧
        (generate (generate s t pool).1 t2 pool).2 = some id2 ∧
        id2.data.drop 8 = id1.data.drop 8) := by
  have hnd := nextDigits_of_ne s t hne
  have hfst := generate_fst s hs t pool
  refine ⟨by rw [hfst, hnd], ⟨_, generate_snd s hs t ht pool hp, ?_⟩, ?_⟩
  · intro i
    show (idChars pool t (nextDigits s t))[19 - i.val]? = _
    rw [hnd]
    exact idChars_suffix_getElem pool hp t _ hs.1 hs.2 i.val i.isLt
  · intro t2 ht2 hne2
    refine ⟨_, _, generate_snd s hs t ht pool hp,
      generate_snd _ (generate_valid s hs t pool) t2 ht2 pool hp, ?_⟩
    show (idChars pool t2 (nextDigits (generate s t pool).1 t2)).drop 8 =
      (idChars pool t (nextDigits s t)).drop 8
    rw [idChars_drop, idChars_drop, hfst, nextDigits_of_ne _ t2 hne2]

/-- C16: when `generate` is called with a timestamp `timeMs ≥ 0` different from
`lastPushTimeMs`, the 12 stored suffix digits are left unchanged, and the suffix of the
returned identifier encodes exactly those digits: for every `i` in `0..11` the character
at position `19 - i` is `pool[lastRandChars[i]]`; and the next call with another timestamp
carries the same suffix again. -/
theorem different_timestamp_keeps_suffix (s : State) (hs : Valid s) (timeMs : Int)
    (ht : 0 ≤ timeMs) (hne : timeMs ≠ s.lastPushTimeMs) :
    ((AscendingFrom s timeMs).1.lastRandChars = s.lastRandChars ∧
      (∃ id, (AscendingFrom s timeMs).2 = some id ∧
        ∀ i : Fin 12, id.data[19 - i.val]? =
          pushChars.data[(s.lastRandChars.getD i.val 0).toNat]?) ∧
      (∀ t2 : Int, 0 ≤ t2 → t2 ≠ timeMs →
        ∃ id1 id2, (AscendingFrom s timeMs).2 = some id1 ∧
          (AscendingFrom (AscendingFrom s timeMs).1 t2).2 = some id2 ∧
          id2.data.drop 8 = id1.data.drop 8)) ∧
    ((DescendingFrom s timeMs).1.lastRandChars = s.lastRandChars ∧
      (∃ id, (DescendingFrom s timeMs).2 = some id ∧
        ∀ i : Fin 12, id.data[19 - i.val]? =
          pushCharsReverse.data[(s.lastRandChars.getD i.val 0).toNat]?) ∧
      (∀ t2 : Int, 0 ≤ t2 → t2 ≠ timeMs →
        ∃ id1 id2, (DescendingFrom s timeMs).2 = some id1 ∧
          (DescendingFrom (DescendingFrom s timeMs).1 t2).2 = some id2 ∧
          id2.data.drop 8 = id1.data.drop 8)) :=
  ⟨generate_keeps_suffix s hs timeMs ht hne pushChars pushChars_length,
   generate_keeps_suffix s hs timeMs ht hne pushCharsReverse pushCharsReverse_length⟩

theorem different_timestamp_keeps_suffix_witness :
    (AscendingFrom carryState 9).1.lastRandChars = carryState.lastRandChars ∧
    (∃ id1 id2, (AscendingFrom carryState 9).2 = some id1 ∧
      (AscendingFrom (AscendingFrom carryState 9).1 2).2 = some id2 ∧
      id2.data.drop 8 = id1.data.drop 8) ∧
    (∃ id1 id2, (DescendingFrom carryState 9).2 = some id1 ∧
      (DescendingFrom (DescendingFrom carryState 9).1 2).2 = some id2 ∧
      id2.data.drop 8 = id1.data.drop 8) :=
  ⟨(different_timestamp_keeps_suffix carryState (by decide) 9 (by decide) (by decide)).1.1,
   (different_timestamp_keeps_suffix carryState (by decide) 9 (by decide)
      (by decide)).1.2.2 2 (by decide) (by decide),
   (different_timestamp_keeps_suffix carryState (by decide) 9 (by decide)
      (by decide)).2.2.2 2 (by decide) (by decide)⟩


/-! ## Overflow of the suffix counter -/

theorem incDigits_max : incDigits (List.replicate 12 (charlen - 1)) = List.replicate 12 0 := by
  decide

theorem valid_of_max (s : State) (hdig : s.lastRandChars = List.replicate 12 (charlen - 1)) :
    Valid s := by
  unfold Valid
  rw [hdig]
  decide

/-- C15: suffix overflow wraps silently.  When all 12 stored digits are `charlen - 1` and
`generate` is called with `timeMs ≥ 0` equal to `lastPushTimeMs`, every digit is left at 0,
the call still returns an identifier, whose suffix is 12 copies of the first character of
the alphabet used (`0` for `AscendingFrom`, `z` for `DescendingFrom`); and the ascending
identifier is strictly smaller than the identifier `AscendingFrom` returns for the same
timestamp with the pre-call digits (suffix `zzzzzzzzzzzz`). -/
theorem suffix_overflow_wraps (s : State) (timeMs : Int) (ht : 0 ≤ timeMs)
    (hlast : s.lastPushTimeMs = timeMs)
    (hdig : s.lastRandChars = List.replicate 12 (charlen - 1)) :
    (AscendingFrom s timeMs).1.lastRandChars = List.replicate 12 0 ∧
    (DescendingFrom s timeMs).1.lastRandChars = List.replicate 12 0 ∧
    pushChars.data.head? = some '0' ∧ pushCharsReverse.data.head? = some 'z' ∧
    (∃ id, (AscendingFrom s timeMs).2 = some id ∧
      id.data.drop 8 = List.replicate 12 '0' ∧
      ∃ id0, (AscendingFrom ⟨timeMs + 1, s.lastRandChars⟩ timeMs).2 = some id0 ∧
        id0.data.take 8 = id.data.take 8 ∧ id0.data.drop 8 = List.replicate 12 'z' ∧
        id < id0) ∧
    (∃ id, (DescendingFrom s timeMs).2 = some id ∧
      id.data.drop 8 = List.replicate 12 'z') := by
  have hs := valid_of_max s hdig
  have hs0 : Valid ⟨timeMs + 1, s.lastRandChars⟩ := ⟨hs.1, hs.2⟩
  have hnd : nextDigits s timeMs = List.replicate 12 0 := by
    unfold nextDigits
    rw [if_pos hlast.symm, hdig, incDigits_max]
  have hnd0 : nextDigits ⟨timeMs + 1, s.lastRandChars⟩ timeMs =
      List.replicate 12 (charlen - 1) := by
    rw [nextDigits_of_ne _ _ (by show timeMs ≠ timeMs + 1; omega)]
    exact hdig
  refine ⟨?_, ?_, by decide, by decide, ?_, ?_⟩
  · show (generate s timeMs pushChars).1.lastRandChars = _
    rw [generate_fst s hs, hnd]
  · show (generate s timeMs pushCharsReverse).1.lastRandChars = _
    rw [generate_fst s hs, hnd]
  · refine ⟨_, generate_snd s hs timeMs ht pushChars pushChars_length, ?_,
      _, generate_snd _ hs0 timeMs ht pushChars pushChars_length, ?_, ?_, ?_⟩
    · show (idChars pushChars timeMs _).drop 8 = _
      rw [idChars_drop, hnd]
      decide
    · show (idChars pushChars timeMs _).take 8 = (idChars pushChars timeMs _).take 8
      rw [idChars_take, idChars_take]
    · show (idChars pushChars timeMs _).drop 8 = _
      rw [idChars_drop, hnd0]
      decide
    · apply string_lt_mk
      rw [hnd, hnd0]
      unfold idChars
      apply List.Lex.append_left
      decide
  · refine ⟨_, generate_snd s hs timeMs ht pushCharsReverse pushCharsReverse_length, ?_⟩
    show (idChars pushCharsReverse timeMs _).drop 8 = _
    rw [idChars_drop, hnd]
    decide

theorem suffix_overflow_wraps_witness :
    (AscendingFrom ⟨7, List.replicate 12 62⟩ 7).1.lastRandChars = List.replicate 12 0 ∧
    (DescendingFrom ⟨7, List.replicate 12 62⟩ 7).1.lastRandChars = List.replicate 12 0 ∧
    pushChars.data.head? = some '0' ∧ pushCharsReverse.data.head? = some 'z' ∧
    (∃ id, (AscendingFrom ⟨7, List.replicate 12 62⟩ 7).2 = some id ∧
      id.data.drop 8 = List.replicate 12 '0' ∧
      ∃ id0, (AscendingFrom ⟨7 + 1, List.replicate 12 62⟩ 7).2 = some id0 ∧
        id0.data.take 8 = id.data.take 8 ∧ id0.data.drop 8 = List.replicate 12 'z' ∧
        id < id0) ∧
    (∃ id, (DescendingFrom ⟨7, List.replicate 12 62⟩ 7).2 = some id ∧
      id.data.drop 8 = List.replicate 12 'z') :=
  suffix_overflow_wraps ⟨7, List.replicate 12 62⟩ 7 (by decide) (by decide) (by decide)

/-! ## The state invariant -/

theorem initLoop_valid (intn : Nat → Int → Int)
    (hintn : ∀ (i : Nat) (n : Int), 0 < n → 0 ≤ intn i n ∧ intn i n < n) (n : Nat) :
    ∀ (i : Nat) (a : List Int), DigitsOk a → DigitsOk (initLoop intn n i a) := by
  induction n with
  | zero => intro i a ha; exact ha
  | succ n ih =>
    intro i a ha
    unfold initLoop
    apply ih
    intro d hd
    rcases List.mem_or_eq_of_mem_set hd with h | h
    · exact ha d h
    · rw [h]; exact hintn i charlen (by rw [charlen_eq]; omega)

theorem initLoop_length (intn : Nat → Int → Int) (n : Nat) :
    ∀ (i : Nat) (a : List Int), (initLoop intn n i a).length = a.length := by
  induction n with
  | zero => intro i a; rfl
  | succ n ih => intro i a; unfold initLoop; rw [ih]; simp

/-- C17: the state invariant `every one of the 12 stored suffix digits is an index into
the alphabets` (`0 ≤ d < charlen`) holds after `init`, whose digits are drawn with
`rnd.Intn(charlen)`, and is preserved by every call of `generate`, for every timestamp and
either alphabet, whether the suffix is incremented (wrap-around included) or not. -/
theorem digits_invariant (intn : Nat → Int → Int)
    (hintn : ∀ (i : Nat) (n : Int), 0 < n → 0 ≤ intn i n ∧ intn i n < n) :
    Valid (init intn) ∧
    ∀ s : State, Valid s → ∀ timeMs : Int,
      Valid (AscendingFrom s timeMs).1 ∧ Valid (DescendingFrom s timeMs).1 := by
  constructor
  · constructor
    · show (initLoop intn 12 0 (List.replicate 12 0)).length = 12
      rw [initLoop_length]; rfl
    · apply initLoop_valid intn hintn
      show ∀ d ∈ List.replicate 12 (0 : Int), 0 ≤ d ∧ d < charlen
      decide
  · intro s hs timeMs
    exact ⟨generate_valid s hs timeMs pushChars, generate_valid s hs timeMs pushCharsReverse⟩

theorem digits_invariant_witness :
    Valid (init fun i n => (62 + (i : Int)) % n) ∧
    ∀ s : State, Valid s → ∀ timeMs : Int,
      Valid (AscendingFrom s timeMs).1 ∧ Valid (DescendingFrom s timeMs).1 :=
  digits_invariant (fun i n => (62 + (i : Int)) % n)
    (fun _ _ hn => ⟨Int.emod_nonneg _ (ne_of_gt hn), Int.emod_lt_of_pos _ hn⟩)

/-! ## The state transition does not depend on the alphabet -/

/-- C20: the state transition of `generate` does not depend on the alphabet.  From the same
valid state and the same timestamp `t ≥ 0`, `AscendingFrom t` and `DescendingFrom t` leave
identical states: `lastPushTimeMs = t`, and the suffix digits incremented exactly when `t`
equalled the previous `lastPushTimeMs`.  So the collision counter is shared: a
`DescendingFrom t` made immediately after `AscendingFrom t` is a collision, it increments
the digits and its identifier carries the incremented digits. -/
theorem transition_independent_of_alphabet (s : State) (hs : Valid s) (t : Int)
    (ht : 0 ≤ t) :
    (AscendingFrom s t).1 = (DescendingFrom s t).1 ∧
    (AscendingFrom s t).1.lastPushTimeMs = t ∧
    (AscendingFrom s t).1.lastRandChars =
      (if t = s.lastPushTimeMs then incrementLastRandChars 12 0 s.lastRandChars
       else s.lastRandChars) ∧
    (DescendingFrom (AscendingFrom s t).1 t).1.lastRandChars =
      incrementLastRandChars 12 0 (AscendingFrom s t).1.lastRandChars ∧
    (AscendingFrom s t).1.lastRandChars ≠
      incrementLastRandChars 12 0 (AscendingFrom s t).1.lastRandChars ∧
    ∃ id, (DescendingFrom (AscendingFrom s t).1 t).2 = some id ∧
      ∀ i : Fin 12, id.data[19 - i.val]? =
        pushCharsReverse.data[((incrementLastRandChars 12 0
          (AscendingFrom s t).1.lastRandChars).getD i.val 0).toNat]? := by
  have hs1 : Valid (AscendingFrom s t).1 := generate_valid s hs t pushChars
  have hinc : incrementLastRandChars 12 0 (AscendingFrom s t).1.lastRandChars =
      incDigits (AscendingFrom s t).1.lastRandChars := by
    rw [incrementLastRandChars_eq 12 0 _ (by simpa using hs1.1.symm) hs1.2]
    simp
  have hnd : nextDigits (AscendingFrom s t).1 t =
      incDigits (AscendingFrom s t).1.lastRandChars := by
    unfold nextDigits
    rw [if_pos (show t = (AscendingFrom s t).1.lastPushTimeMs from rfl)]
  refine ⟨rfl, rfl, rfl, ?_, ?_, _,
    generate_snd _ hs1 t ht pushCharsReverse pushCharsReverse_length, ?_⟩
  · show (generate (AscendingFrom s t).1 t pushCharsReverse).1.lastRandChars = _
    rw [generate_fst _ hs1, hinc, hnd]
  · rw [hinc]
    exact (incDigits_ne _ (by intro h0; have := hs1.1; rw [h0] at this; simp at this)
      hs1.2).symm
  · intro i
    show (idChars pushCharsReverse t (nextDigits (AscendingFrom s t).1 t))[19 - i.val]? = _
    rw [hinc, hnd]
    exact idChars_suffix_getElem pushCharsReverse pushCharsReverse_length t _
      (by rw [incDigits_length]; exact hs1.1) (incDigits_ok _ hs1.2) i.val i.isLt

theorem transition_independent_of_alphabet_witness :
    (AscendingFrom carryState 4).1 = (DescendingFrom carryState 4).1 ∧
    (AscendingFrom carryState 4).1.lastRandChars = [0, 0, 0, 1, 0, 0, 0, 0, 0, 0, 0, 0] ∧
    (DescendingFrom (AscendingFrom carryState 4).1 4).1.lastRandChars =
      incrementLastRandChars 12 0 (AscendingFrom carryState 4).1.lastRandChars :=
  ⟨(transition_independent_of_alphabet carryState (by decide) 4 (by decide)).1,
   by decide,
   (transition_independent_of_alphabet carryState (by decide) 4 (by decide)).2.2.2.1⟩


/-! ## Decoding the timestamp -/

theorem decode_time (pool : String) (hp : pool.data.length = 63) (hn : pool.data.Nodup)
    (k : Nat) : ∀ t : Int, 0 ≤ t →
    decode pool ((timeDigits k t).map (charAt pool)) = t % charlen ^ k := by
  induction k with
  | zero => intro t _; simp [decode, timeDigits]
  | succ k ih =>
    intro t ht
    have hq : 0 ≤ t / charlen := Int.ediv_nonneg ht (by rw [charlen_eq]; omega)
    have hlen : (pool.length : Int) = charlen := by
      rw [charlen_eq]; show ((pool.data.length : Nat) : Int) = 63; rw [hp]; rfl
    have hm0 : 0 ≤ t % charlen := Int.emod_nonneg _ (by rw [charlen_eq]; omega)
    have hm1 : t % charlen < charlen := Int.emod_lt_of_pos _ (by rw [charlen_eq]; omega)
    have hd1 : (t % charlen).toNat < pool.data.length := by
      rw [charlen_eq] at hm0 hm1; rw [hp, charlen_eq]; omega
    have hidx : (pool.data.indexOf (charAt pool (t % charlen)) : Int) = t % charlen := by
      unfold charAt
      rw [List.getD_eq_getElem _ _ hd1, List.indexOf_getElem hn]
      omega
    have h1 : t % charlen ^ (k + 1) % charlen = t % charlen :=
      Int.emod_emod_of_dvd t (Dvd.intro_left (charlen ^ k) (by rw [pow_succ]))
    have h2 : t % charlen ^ (k + 1) / charlen = t / charlen % charlen ^ k := by
      rw [pow_succ', charlen_eq]
      have := int_mod_mul_div t ht 63 (63 ^ k)
      push_cast at this
      exact this
    have h3 := Int.emod_add_ediv (t % charlen ^ (k + 1)) charlen
    have ih2 := ih (t / charlen) hq
    unfold decode at ih2 ⊢
    unfold timeDigits
    rw [List.map_append, List.foldl_append]
    simp only [List.map_cons, List.map_nil, List.foldl_cons, List.foldl_nil]
    rw [ih2, hidx, hlen, ← h3, h1, h2]
    ring

theorem take8_inj (pool : String) (hp : pool.data.length = 63) (hn : pool.data.Nodup)
    (t1 t2 : Int) (h1 : 0 ≤ t1 ∧ t1 < charlen ^ 8) (h2 : 0 ≤ t2 ∧ t2 < charlen ^ 8)
    (d1 d2 : List Int)
    (h : (idChars pool t1 d1).take 8 = (idChars pool t2 d2).take 8) : t1 = t2 := by
  rw [idChars_take, idChars_take] at h
  have e1 := decode_time pool hp hn 8 t1 h1.1
  have e2 := decode_time pool hp hn 8 t2 h2.1
  rw [h, e2, Int.emod_eq_of_lt h1.1 h1.2, Int.emod_eq_of_lt h2.1 h2.2] at e1
  exact e1.symm

theorem generate_round_trip (s : State) (hs : Valid s) (t : Int) (ht : 0 ≤ t)
    (pool : String) (hp : pool.data.length = 63) (hn : pool.data.Nodup) :
    (∃ id, (generate s t pool).2 = some id ∧
      decode pool (id.data.take 8) = t % charlen ^ 8 ∧
      (t < charlen ^ 8 → decode pool (id.data.take 8) = t)) ∧
    (∀ (s2 : State) (t2 : Int), Valid s2 → 0 ≤ t2 → t < charlen ^ 8 → t2 < charlen ^ 8 →
      ∀ id id2, (generate s t pool).2 = some id → (generate s2 t2 pool).2 = some id2 →
        id.data.take 8 = id2.data.take 8 → t = t2) := by
  have hdec : decode pool ((idChars pool t (nextDigits s t)).take 8) = t % charlen ^ 8 := by
    rw [idChars_take]; exact decode_time pool hp hn 8 t ht
  constructor
  · refine ⟨_, generate_snd s hs t ht pool hp, hdec, ?_⟩
    intro hlt
    show decode pool ((idChars pool t (nextDigits s t)).take 8) = t
    rw [hdec, Int.emod_eq_of_lt ht hlt]
  · intro s2 t2 hs2 ht2 hlt hlt2 id id2 e1 e2 htake
    rw [generate_snd s hs t ht pool hp] at e1
    rw [generate_snd s2 hs2 t2 ht2 pool hp] at e2
    rw [← Option.some.inj e1, ← Option.some.inj e2] at htake
    exact take8_inj pool hp hn t t2 ⟨ht, hlt⟩ ⟨ht2, hlt2⟩ _ _ htake

/-- C18: timestamp round trip in the base of the alphabet.  From a valid state and a
timestamp `t ≥ 0`, decoding the first 8 characters of `AscendingFrom t` (each character
replaced by its index in `pushChars`, most significant first, base `len(pushChars)`) yields
`t mod charlen ^ 8`; hence for `0 ≤ t < charlen ^ 8` the timestamp is recovered exactly and
the timestamp characters are injective on that range.  The same holds for
`DescendingFrom t` decoded with `pushCharsReverse`. -/
theorem timestamp_round_trip (s : State) (hs : Valid s) (t : Int) (ht : 0 ≤ t) :
    ((∃ id, (AscendingFrom s t).2 = some id ∧
        decode pushChars (id.data.take 8) = t % charlen ^ 8 ∧
        (t < charlen ^ 8 → decode pushChars (id.data.take 8) = t)) ∧
      (∀ (s2 : State) (t2 : Int), Valid s2 → 0 ≤ t2 → t < charlen ^ 8 → t2 < charlen ^ 8 →
        ∀ id id2, (AscendingFrom s t).2 = some id → (AscendingFrom s2 t2).2 = some id2 →
          id.data.take 8 = id2.data.take 8 → t = t2)) ∧
    ((∃ id, (DescendingFrom s t).2 = some id ∧
        decode pushCharsReverse (id.data.take 8) = t % charlen ^ 8 ∧
        (t < charlen ^ 8 → decode pushCharsReverse (id.data.take 8) = t)) ∧
      (∀ (s2 : State) (t2 : Int), Valid s2 → 0 ≤ t2 → t < charlen ^ 8 → t2 < charlen ^ 8 →
        ∀ id id2, (DescendingFrom s t).2 = some id → (DescendingFrom s2 t2).2 = some id2 →
          id.data.take 8 = id2.data.take 8 → t = t2)) :=
  ⟨generate_round_trip s hs t ht pushChars pushChars_length pushChars_nodup,
   generate_round_trip s hs t ht pushCharsReverse pushCharsReverse_length
     pushCharsReverse_nodup⟩

theorem timestamp_round_trip_witness :
    (∃ id, (AscendingFrom carryState 1700000000000).2 = some id ∧
      decode pushChars (id.data.take 8) = 1700000000000) ∧
    (∃ id, (DescendingFrom carryState 1700000000000).2 = some id ∧
      decode pushCharsReverse (id.data.take 8) = 1700000000000) :=
  ⟨(fun ⟨id, h1, _, h3⟩ => ⟨id, h1, h3 (by decide)⟩)
      (timestamp_round_trip carryState (by decide) 1700000000000 (by decide)).1.1,
   (fun ⟨id, h1, _, h3⟩ => ⟨id, h1, h3 (by decide)⟩)
      (timestamp_round_trip carryState (by decide) 1700000000000 (by decide)).2.1⟩


/-! ## The exact failure condition -/

theorem tmod_neg_of_neg (t : Int) (ht : t < 0) (hnd : ¬ charlen ∣ t) :
    Int.tmod t charlen < 0 := by
  have hne : Int.tmod t charlen ≠ 0 := fun h => hnd (Int.dvd_of_tmod_eq_zero h)
  have hpos : 0 ≤ Int.tmod (-t) charlen := Int.tmod_nonneg _ (by omega)
  have e1 := Int.tmod_add_tdiv t charlen
  have e2 := Int.tmod_add_tdiv (-t) charlen
  rw [Int.neg_tdiv, Int.mul_neg] at e2
  omega

theorem putTime_of_dvd (pool : String) (hp : pool.data.length = 63) (k : Nat) :
    ∀ (t : Int) (id : List Char), charlen ^ k ∣ t → k ≤ id.length →
    putTime pool k t id = some (List.replicate k (charAt pool 0) ++ id.drop k) := by
  induction k with
  | zero => intro t id _ _; simp [putTime]
  | succ k ih =>
    intro t id hdvd hk
    have hc0 : charlen ≠ 0 := by rw [charlen_eq]; omega
    have hN : charlen ∣ t := dvd_trans (dvd_pow_self charlen (Nat.succ_ne_zero k)) hdvd
    have hmod : Int.tmod t charlen = 0 := Int.tmod_eq_zero_of_dvd hN
    have hmul : Int.tdiv t charlen * charlen = t := Int.tdiv_mul_cancel hN
    have hq : charlen ^ k ∣ Int.tdiv t charlen := by
      rw [pow_succ, ← hmul] at hdvd
      exact (mul_dvd_mul_iff_right hc0).mp hdvd
    unfold putTime
    rw [hmod, index_eq_charAt pool hp 0 (le_refl 0) (by rw [charlen_eq]; omega)]
    simp only []
    rw [ih _ _ hq (by simp; omega), drop_self_set id k _ (by omega), List.replicate_succ']
    simp

theorem putTime_none_of_neg (pool : String) (hp : pool.data.length = 63) (k : Nat) :
    ∀ (t : Int) (id : List Char), t < 0 → ¬ charlen ^ k ∣ t → putTime pool k t id = none := by
  induction k with
  | zero => intro t id _ hnd; exact absurd (by simp) hnd
  | succ k ih =>
    intro t id ht hnd
    have hc0 : charlen ≠ 0 := by rw [charlen_eq]; omega
    have hcpos : 0 < charlen := by rw [charlen_eq]; omega
    unfold putTime
    by_cases hN : charlen ∣ t
    · have hmod : Int.tmod t charlen = 0 := Int.tmod_eq_zero_of_dvd hN
      have hmul : Int.tdiv t charlen * charlen = t := Int.tdiv_mul_cancel hN
      have hqneg : Int.tdiv t charlen < 0 := by
        by_contra hge
        have : 0 ≤ Int.tdiv t charlen * charlen :=
          Int.mul_nonneg (not_lt.mp hge) (le_of_lt hcpos)
        omega
      have hq : ¬ charlen ^ k ∣ Int.tdiv t charlen := by
        intro h
        apply hnd
        rw [pow_succ, ← hmul]
        exact (mul_dvd_mul_iff_right hc0).mpr h
      rw [hmod, index_eq_charAt pool hp 0 (le_refl 0) hcpos]
      simp only []
      exact ih _ _ hqneg hq
    · have hlt := tmod_neg_of_neg t ht hN
      have hidx : index pool (Int.tmod t charlen) = none := by
        unfold index
        rw [if_pos hlt]
      rw [hidx]

theorem generate_snd_putTime (s : State) (hs : Valid s) (t : Int) (pool : String)
    (hp : pool.data.length = 63) :
    ∃ id1 : List Char, id1.length = 20 ∧
      (generate s t pool).2 = (putTime pool 8 t id1).map String.mk := by
  have hfst := generate_fst s hs t pool
  have hd : (generate s t pool).1.lastRandChars = nextDigits s t := by rw [hfst]
  have hl := nextDigits_length s hs t
  have hok := nextDigits_ok s hs t
  refine ⟨List.take 8 (List.replicate 20 (Char.ofNat 0)) ++
      (List.map (charAt pool) (List.drop 0 (nextDigits s t))).reverse ++
      List.drop (20 - 0) (List.replicate 20 (Char.ofNat 0)), by simp [hl], ?_⟩
  unfold generate at hd ⊢
  simp only [] at hd ⊢
  rw [hd, putRandom_eq pool hp _ hl hok 12 0 _ (by rfl) (by simp)]
  simp only [Option.some_bind]

theorem generate_none_iff (s : State) (hs : Valid s) (t : Int) (pool : String)
    (hp : pool.data.length = 63) :
    (generate s t pool).2 = none ↔ t < 0 ∧ ¬ charlen ^ 8 ∣ t := by
  obtain ⟨id1, hlen, heq⟩ := generate_snd_putTime s hs t pool hp
  constructor
  · intro hnone
    by_contra hcon
    by_cases hdvd : charlen ^ 8 ∣ t
    · rw [heq, putTime_of_dvd pool hp 8 t id1 hdvd (by omega)] at hnone
      simp at hnone
    · have ht : 0 ≤ t := by
        by_contra hneg
        exact hcon ⟨not_le.mp hneg, hdvd⟩
      rw [generate_snd s hs t ht pool hp] at hnone
      simp at hnone
  · intro ⟨ht, hnd⟩
    rw [heq, putTime_none_of_neg pool hp 8 t id1 ht hnd]
    rfl

theorem generate_of_dvd (s : State) (hs : Valid s) (t : Int) (hdvd : charlen ^ 8 ∣ t)
    (pool : String) (hp : pool.data.length = 63) :
    ∃ id, (generate s t pool).2 = some id ∧
      id.data.take 8 = List.replicate 8 (charAt pool 0) := by
  obtain ⟨id1, hlen, heq⟩ := generate_snd_putTime s hs t pool hp
  rw [putTime_of_dvd pool hp 8 t id1 hdvd (by omega)] at heq
  refine ⟨_, heq, ?_⟩
  show (List.replicate 8 (charAt pool 0) ++ id1.drop 8).take 8 = _
  rw [List.take_append_eq_append_take]
  simp

/-- C19: the exact failure condition.  From a valid state and for every timestamp `t`
(every 64-bit integer in particular), `AscendingFrom t`, and likewise `DescendingFrom t`,
fails with an out-of-range alphabet index if and only if `t < 0` and `t` is not a multiple
of `charlen ^ 8`; in particular `t = -1` fails, every `t ≥ 0` succeeds, and
`t = -charlen ^ 8` succeeds, `AscendingFrom` returning the timestamp characters
`00000000` (and `DescendingFrom` their mirror `zzzzzzzz`). -/
theorem failure_iff_negative_nonmultiple (s : State) (hs : Valid s) (t : Int) :
    ((AscendingFrom s t).2 = none ↔ t < 0 ∧ ¬ charlen ^ 8 ∣ t) ∧
    ((DescendingFrom s t).2 = none ↔ t < 0 ∧ ¬ charlen ^ 8 ∣ t) ∧
    (AscendingFrom s (-1)).2 = none ∧ (DescendingFrom s (-1)).2 = none ∧
    (0 ≤ t → (AscendingFrom s t).2 ≠ none ∧ (DescendingFrom s t).2 ≠ none) ∧
    (∃ id, (AscendingFrom s (-(charlen ^ 8))).2 = some id ∧
      id.data.take 8 = "00000000".data) ∧
    (∃ id, (DescendingFrom s (-(charlen ^ 8))).2 = some id ∧
      id.data.take 8 = "zzzzzzzz".data) := by
  have hA := generate_none_iff s hs t pushChars pushChars_length
  have hD := generate_none_iff s hs t pushCharsReverse pushCharsReverse_length
  have hm1 : (-1 : Int) < 0 ∧ ¬ charlen ^ 8 ∣ (-1 : Int) := by decide
  have hdvd : charlen ^ 8 ∣ -(charlen ^ 8) := (dvd_neg).mpr (dvd_refl _)
  refine ⟨hA, hD, (generate_none_iff s hs (-1) pushChars pushChars_length).mpr hm1,
    (generate_none_iff s hs (-1) pushCharsReverse pushCharsReverse_length).mpr hm1, ?_, ?_, ?_⟩
  · intro ht
    exact ⟨fun h => absurd (hA.mp h).1 (not_lt.mpr ht),
      fun h => absurd (hD.mp h).1 (not_lt.mpr ht)⟩
  · obtain ⟨id, h1, h2⟩ := generate_of_dvd s hs _ hdvd pushChars pushChars_length
    exact ⟨id, h1, by rw [h2]; decide⟩
  · obtain ⟨id, h1, h2⟩ :=
      generate_of_dvd s hs _ hdvd pushCharsReverse pushCharsReverse_length
    exact ⟨id, h1, by rw [h2]; decide⟩

theorem failure_iff_negative_nonmultiple_witness :
    (AscendingFrom zeroState (-(2 * 63 ^ 8) + 1)).2 = none ∧
    (DescendingFrom zeroState (-(2 * 63 ^ 8) + 1)).2 = none ∧
    (AscendingFrom zeroState (-(2 * 63 ^ 8))).2 ≠ none ∧
    (DescendingFrom zeroState (-(2 * 63 ^ 8))).2 ≠ none :=
  ⟨(failure_iff_negative_nonmultiple zeroState (by decide) (-(2 * 63 ^ 8) + 1)).1.mpr
      (by decide),
   (failure_iff_negative_nonmultiple zeroState (by decide) (-(2 * 63 ^ 8) + 1)).2.1.mpr
      (by decide),
   fun h => ((failure_iff_negative_nonmultiple zeroState (by decide)
      (-(2 * 63 ^ 8))).1.mp h).2 (by decide),
   fun h => ((failure_iff_negative_nonmultiple zeroState (by decide)
      (-(2 * 63 ^ 8))).2.1.mp h).2 (by decide)⟩


/-! ## Concurrent callers -/

theorem stepEvent_valid (w : Run) (hw : Valid w.state) (e : Event) :
    Valid (stepEvent w e).state := by
  cases e with
  | tick => exact hw
  | read g =>
    simp only [stepEvent]
    split
    · exact hw
    · exact hw
  | gen g =>
    simp only [stepEvent]
    split
    · exact hw
    · exact generate_valid w.state hw _ pushChars

theorem runEvents_valid (es : List Event) : ∀ w : Run, Valid w.state →
    Valid (runEvents w es).state := by
  induction es with
  | nil => intro w hw; exact hw
  | cons e es ih => intro w hw; exact ih _ (stepEvent_valid w hw e)

/-- C14 is broken by the code in its uniqueness half.  `Ascending` reads the clock before
`generate` takes `mu`, so the timestamps can reach the lock out of order: with the clock
at millisecond 10 and the valid all-zero state, under `delayedSchedule` the calls run as
`generate(11)`, `generate(10)`, `generate(11)`, and goroutine 0 receives
`0000000B000000000000` from both of its calls to `New()`, the duplicate that `doMany`
reports as fatal.  The state itself stays valid: the mutex does serialise the writes. -/
theorem concurrent_new_returns_duplicate :
    Valid zeroState ∧
    (runEvents ⟨10, zeroState, [], []⟩ delayedSchedule).returned =
      [(0, some "0000000B000000000000"), (1, some "0000000A000000000000"),
       (0, some "0000000B000000000000")] ∧
    ¬ ((runEvents ⟨10, zeroState, [], []⟩ delayedSchedule).returned.map Prod.snd).Nodup ∧
    Valid (runEvents ⟨10, zeroState, [], []⟩ delayedSchedule).state := by
  decide

end betterguid
